import Mathlib

/-
  Shallow embedding of the SIM-RISK web Monte Carlo engine
  (seeded xorshift RNG, Gamma/Beta/PERT samplers, simulation loop,
  descriptive statistics, variance decomposition), together with
  theorems settling the documented behavioural claims.

  Numbers are modelled by the rationals; the transcendental library
  functions (Math.sqrt, Math.log, Math.pow) are abstracted as an
  explicit parameter structure, and the unbounded rejection loops of
  the samplers are modelled with an explicit fuel argument.
-/

namespace SimRisk


/-! ## JavaScript numeric primitives -/

/-- Math.floor on rationals. -/

def jsFloor (q : ℚ) : ℤ := q.num.fdiv q.den

/-- Math.ceil on rationals. -/

def jsCeil (q : ℚ) : ℤ := -jsFloor (-q)

/-- Math.abs on rationals. -/

def jsAbs (q : ℚ) : ℚ := if q < 0 then -q else q

/-- Math.round on rationals (round half toward positive infinity). -/

def jsRound (q : ℚ) : ℤ := jsFloor (q + 1 / 2)

/-- Math.max on rationals. -/

def jsMax (a b : ℚ) : ℚ := if a < b then b else a

/-- Math.min on rationals. -/

def jsMin (a b : ℚ) : ℚ := if a < b then a else b

/-- Array.prototype.reduce with the (sum, val) => sum + val accumulator
starting at 0: a left fold. -/

def jsSum (l : List ℚ) : ℚ := l.foldl (· + ·) 0

/-- Math.pow with a constant natural exponent, as used by the statistics
code (exponents 2, 3 and 4). -/

def jsPow (x : ℚ) : ℕ → ℚ
  | 0 => 1
  | n + 1 => jsPow x n * x

/-! ## Deterministic random source (createSeededRNG, src/unnamed/part_001 lines 9-19) -/

def UINT32_MOD : ℕ := 4294967296

def RNG_DENOM : ℕ := 4294967295

/-- Bit pattern of the ToInt32 / ToUint32 coercion JavaScript applies to an
integer before a bitwise operation. -/

def jsToUint32 (z : ℤ) : ℕ := (z % (UINT32_MOD : ℤ)).toNat

/-- One update of the xorshift32 state, as in the body of the closure returned
by createSeededRNG: shifts 13, 17, 5, with the final conversion to an
unsigned 32 bit value. -/

def xorshiftStep (s : ℕ) : ℕ :=
  let s1 := (s ^^^ (s <<< 13)) % UINT32_MOD
  let s2 := s1 ^^^ (s1 >>> 17)
  (s2 ^^^ (s2 <<< 5)) % UINT32_MOD

/-- Internal state after the (k+1)-th call of the generator started at
state `init` (each call first advances the state, then emits it). -/

def rngStateAfter (init : ℕ) : ℕ → ℕ
  | 0 => xorshiftStep init
  | k + 1 => xorshiftStep (rngStateAfter init k)

/-- Value emitted by the (k+1)-th call of the generator started at state
`init`: the advanced state divided by 0xFFFFFFFF. -/

def rngValue (init : ℕ) (k : ℕ) : ℚ := (rngStateAfter init k : ℚ) / (RNG_DENOM : ℚ)

/-- Initial state chosen by createSeededRNG: `seed || Math.floor(Math.random() * 0x7FFFFFFF)`.
A zero seed is falsy in JavaScript, so it falls back to the entropy draw
(the value of Math.random() is the `entropy` argument). -/

def seedState (seed : ℤ) (entropy : ℚ) : ℕ :=
  if seed = 0 then jsToUint32 (jsFloor (entropy * 2147483647)) else jsToUint32 seed

/-- Value stream of the procedure returned by `createSeededRNG seed`, with the
platform entropy made explicit. -/

def createdValue (seed : ℤ) (entropy : ℚ) (k : ℕ) : ℚ := rngValue (seedState seed entropy) k

/-! ## PERT parameterizer (calcularParametrosBetaPERT, src/unnamed/part_001 lines 100-116) -/

/-- Numerical zero threshold 1e-10 used by the degenerate-range test. -/

def EPS10 : ℚ := 1 / 10000000000

structure PertParams where
  alpha : ℚ
  beta : ℚ
  isConstant : Bool
  constantValue : Option ℚ
  deriving DecidableEq, Repr

def calcularParametrosBetaPERT (a m b : ℚ) : Except String PertParams :=
  if jsAbs (b - a) < EPS10 then
    .ok ⟨0, 0, true, some a⟩
  else if a > m ∨ m > b then
    .error "Valores invalidos: a <= m <= b no se cumple"
  else
    .ok ⟨1 + 4 * (m - a) / (b - a), 1 + 4 * (b - m) / (b - a), false, none⟩

/-! ## Abstract transcendental primitives and the RNG stream abstraction -/

/-- Abstraction of the JavaScript Math.sqrt, Math.log and Math.pow used by the
samplers and by the statistics engine. -/

structure MathPrims where
  sqrt : ℚ → ℚ
  log : ℚ → ℚ
  pow : ℚ → ℚ → ℚ

/-- A concrete instance of the primitives, used to evaluate the embedding at
concrete inputs. -/

def simplePrims : MathPrims := ⟨fun x => x, fun x => x, fun x _ => x⟩

/-- A stateful uniform stream: the underlying value sequence plus the number of
values already consumed. -/

structure Rng where
  stream : ℕ → ℚ
  pos : ℕ

def Rng.next (r : Rng) : ℚ × Rng := (r.stream r.pos, ⟨r.stream, r.pos + 1⟩)

/-! ## Gamma and Beta samplers (src/unnamed/part_001 lines 28-91) -/

/-- Inner do-while of the Marsaglia-Tsang body: draw u1, u2, reject while
u1*u1 + u2*u2 is at least 1 or exactly 0, then return x = u1 * multiplier
with multiplier = sqrt(-2 log(s) / s). Fueled, since the loop is unbounded. -/

def polarLoop (P : MathPrims) : ℕ → Rng → Option (ℚ × Rng)
  | 0, _ => none
  | fuel + 1, r =>
    let (u1, r1) := r.next
    let (u2, r2) := r1.next
    let s := u1 * u1 + u2 * u2
    if 1 ≤ s ∨ s = 0 then polarLoop P fuel r2
    else some (u1 * P.sqrt (-2 * P.log s / s), r2)

/-- Outer do-while of the Marsaglia-Tsang body: redraw x until v = 1 + c*x is
positive. Returns x together with the un-cubed v. -/

def xvLoop (P : MathPrims) (c : ℚ) : ℕ → Rng → Option (ℚ × ℚ × Rng)
  | 0, _ => none
  | fuel + 1, r =>
    match polarLoop P (fuel + 1) r with
    | none => none
    | some (x, r1) =>
      let v := 1 + c * x
      if v ≤ 0 then xvLoop P c fuel r1 else some (x, v, r1)

/-- gammaRandom: Marsaglia-Tsang with the k < 1 boosting branch, the cheap
squeeze test, the exact log test, and recursion on rejection. The JavaScript
default `theta = theta || 1` maps a zero scale to 1. -/

def gammaRandom (P : MathPrims) : ℕ → ℚ → ℚ → Rng → Option (ℚ × Rng)
  | 0, _, _, _ => none
  | fuel + 1, k, theta0, r =>
    let theta := if theta0 = 0 then 1 else theta0
    if k < 1 then
      let (u, r1) := r.next
      match gammaRandom P fuel (1 + k) theta r1 with
      | none => none
      | some (g, r2) => some (g * P.pow u (1 / k), r2)
    else
      let d := k - 1 / 3
      let c := 1 / P.sqrt (9 * d)
      match xvLoop P c (fuel + 1) r with
      | none => none
      | some (x, v0, r1) =>
        let v := v0 * v0 * v0
        let (u, r2) := r1.next
        if u < 1 - 331 / 10000 * (x * x) * (x * x) then some (d * v * theta, r2)
        else if P.log u < 1 / 2 * (x * x) + d * (1 - v + P.log v) then some (d * v * theta, r2)
        else gammaRandom P fuel k theta r2

/-- betaRandom: the ratio of two Gamma draws, with the 0.5 fallback when both
draws are exactly zero. -/

def betaRandom (P : MathPrims) (fuel : ℕ) (alpha bet : ℚ) (r : Rng) : Option (ℚ × Rng) :=
  match gammaRandom P fuel alpha 1 r with
  | none => none
  | some (g1, r1) =>
    match gammaRandom P fuel bet 1 r1 with
    | none => none
    | some (g2, r2) =>
      if g1 + g2 = 0 then some (1 / 2, r2) else some (g1 / (g1 + g2), r2)

/-! ## Input validation of the simulation loop (src/unnamed/part_001 lines 204-241) -/

/-- Raw caller-supplied item: a field is `none` when parseFloat of the supplied
value is NaN. -/

structure ItemRaw where
  a : Option ℚ
  m : Option ℚ
  b : Option ℚ
  id : Option String := none
  deriving DecidableEq, Repr

/-- Validated item. -/

structure Item where
  a : ℚ
  m : ℚ
  b : ℚ
  id : String
  deriving DecidableEq, Repr

/-- Error taxonomy of the engine, mirroring the thrown JavaScript errors plus
the fuel exhaustion artefact of the embedding. -/

inductive SimError where
  | invalidIterations
  | emptyItems
  | nonNumericItem (index : ℕ)
  | invalidRangeItem (index : ℕ)
  | pertInvalidRange
  | emptyResults
  | nanResults
  | outOfFuel
  deriving DecidableEq, Repr

/-- Validation errors: the errors raised by the up-front input checks of
runMonteCarlo and by the range check of the PERT parameterizer. -/

def SimError.isValidation : SimError → Bool
  | .invalidIterations => true
  | .emptyItems => true
  | .nonNumericItem _ => true
  | .invalidRangeItem _ => true
  | .pertInvalidRange => true
  | _ => false

def validateItem (index : ℕ) (item : ItemRaw) : Except SimError Item :=
  match item.a, item.m, item.b with
  | some a, some m, some b =>
    if a > m ∨ m > b then .error (.invalidRangeItem index)
    else
      .ok ⟨a, m, b,
        match item.id with
        | some s => if s = "" then "item_" ++ toString (index + 1) else s
        | none => "item_" ++ toString (index + 1)⟩
  | _, _, _ => .error (.nonNumericItem index)

def validateItemsFrom : ℕ → List ItemRaw → Except SimError (List Item)
  | _, [] => .ok []
  | index, item :: rest =>
    match validateItem index item with
    | .error e => .error e
    | .ok v =>
      match validateItemsFrom (index + 1) rest with
      | .error e => .error e
      | .ok vs => .ok (v :: vs)

def validateItems (items : List ItemRaw) : Except SimError (List Item) :=
  validateItemsFrom 0 items

/-- PERT parameters of one item together with the carried range and id, as in
`{ ...params, a, b, id }`. -/

structure ItemParams where
  pert : PertParams
  a : ℚ
  b : ℚ
  id : String
  deriving DecidableEq, Repr

def computeParams : List Item → Except SimError (List ItemParams)
  | [] => .ok []
  | it :: rest =>
    match calcularParametrosBetaPERT it.a it.m it.b with
    | .error _ => .error .pertInvalidRange
    | .ok p =>
      match computeParams rest with
      | .error e => .error e
      | .ok ps => .ok (⟨p, it.a, it.b, it.id⟩ :: ps)

/-! ## Statistics engine (getStatistics, src/unnamed/part_001 lines 123-192) -/

/-- Rounding to two decimal places: Math.round(val * 100) / 100. -/

def round2 (q : ℚ) : ℚ := (jsRound (q * 100) : ℚ) / 100

/-- Insertion into the histogram object: increment the frequency of an existing
key, or append a new key with frequency 1 (insertion order preserved). -/

def histUpsert : List (ℚ × ℕ) → ℚ → List (ℚ × ℕ)
  | [], k => [(k, 1)]
  | (k', f) :: t, k => if k' = k then (k', f + 1) :: t else (k', f) :: histUpsert t k

def buildHist (results : List ℚ) : List (ℚ × ℕ) :=
  results.foldl (fun h v => histUpsert h (round2 v)) []

/-- A numeric key whose string form is a canonical array index: JavaScript
object enumeration lists such keys first, in ascending order. -/

def isArrayIndexKey (q : ℚ) : Bool :=
  q.den == 1 && decide (0 ≤ q.num) && decide (q.num < 4294967295)

/-- Object.entries enumeration order of the histogram: array-index keys in
ascending order first, then the remaining keys in insertion order. -/

def jsEntries (h : List (ℚ × ℕ)) : List (ℚ × ℕ) :=
  List.insertionSort (fun e e' : ℚ × ℕ => e.1 ≤ e'.1) (h.filter fun e => isArrayIndexKey e.1)
    ++ h.filter (fun e => ! isArrayIndexKey e.1)

/-- The single scan selecting the first key attaining the maximal frequency,
starting from (mean, 0). -/

def modeScan (entries : List (ℚ × ℕ)) (mean : ℚ) : ℚ × ℕ :=
  entries.foldl (fun acc e => if e.2 > acc.2 then (e.1, e.2) else acc) (mean, 0)

structure StatsRecord where
  min : ℚ
  max : ℚ
  mean : ℚ
  median : ℚ
  mode : ℚ
  sd : ℚ
  skewness : ℚ
  kurtosis : ℚ
  percentile5 : ℚ
  percentile50 : ℚ
  percentile95 : ℚ
  ic90_halfWidth : ℚ
  deriving DecidableEq, Repr

def getStatistics (P : MathPrims) (results : List ℚ) : Except SimError StatsRecord :=
  if results.length = 0 then .error .emptyResults
  else
    let n : ℕ := results.length
    let nQ : ℚ := (n : ℚ)
    let sorted := List.insertionSort (· ≤ ·) results
    let mn := sorted.getD 0 0
    let mx := sorted.getD (n - 1) 0
    let mean := jsSum results / nQ
    let median :=
      if n % 2 = 0 then (sorted.getD (n / 2 - 1) 0 + sorted.getD (n / 2) 0) / 2
      else sorted.getD (n / 2) 0
    let mode := (modeScan (jsEntries (buildHist results)) mean).1
    let variance := jsSum (results.map fun val => jsPow (val - mean) 2) / nQ
    let sd := P.sqrt variance
    let skewness :=
      if 1 < n then jsSum (results.map fun val => jsPow ((val - mean) / sd) 3) / nQ else 0
    let kurtosis :=
      if 1 < n then jsSum (results.map fun val => jsPow ((val - mean) / sd) 4) / nQ - 3 else 0
    let percentile5 := sorted.getD (jsFloor (nQ * (5 / 100))).toNat 0
    let percentile95 := sorted.getD (jsFloor (nQ * (95 / 100))).toNat 0
    let ic90_halfWidth := 1645 / 1000 * (sd / P.sqrt nQ)
    .ok ⟨mn, mx, mean, median, mode, sd, skewness, kurtosis,
         percentile5, median, percentile95, ic90_halfWidth⟩

/-! ## Interpolated percentile of the visualization layer (src/visualizations.js lines 10-26) -/

def percentile (sortedArray : List ℚ) (p : ℚ) : ℚ :=
  if sortedArray.length = 0 then 0
  else if p ≤ 0 then sortedArray.getD 0 0
  else if 1 ≤ p then sortedArray.getD (sortedArray.length - 1) 0
  else
    let n := sortedArray.length
    let index := p * ((n : ℚ) - 1)
    let lower := jsFloor index
    let upper := jsCeil index
    let weight := index - (lower : ℚ)
    if lower = upper then sortedArray.getD lower.toNat 0
    else sortedArray.getD lower.toNat 0 * (1 - weight) + sortedArray.getD upper.toNat 0 * weight

/-! ## Simulation loop (runMonteCarlo, src/unnamed/part_001 lines 204-332) -/

/-- One sample for one item: the constant value on the degenerate path,
otherwise the rescaled Beta draw with the defensive clamp. -/

def simulateOneItem (P : MathPrims) (fuel : ℕ) (param : ItemParams) (r : Rng) :
    Option (ℚ × Rng) :=
  if param.pert.isConstant then
    some (param.pert.constantValue.getD 0, r)
  else
    match betaRandom P fuel param.pert.alpha param.pert.beta r with
    | none => none
    | some (u, r1) =>
      let sample := param.a + (param.b - param.a) * u
      if sample < param.a - EPS10 ∨ sample > param.b + EPS10 then
        some (jsMax param.a (jsMin param.b sample), r1)
      else some (sample, r1)

/-- Inner item loop of one iteration: accumulates the running total and
collects the per-item samples of this iteration in item order. -/

def simulateItemsAux (P : MathPrims) (fuel : ℕ) :
    ℚ → List ItemParams → Rng → Option (ℚ × List ℚ × Rng)
  | total, [], r => some (total, [], r)
  | total, param :: rest, r =>
    match simulateOneItem P fuel param r with
    | none => none
    | some (sample, r1) =>
      match simulateItemsAux P fuel (total + sample) rest r1 with
      | none => none
      | some (t, ss, r2) => some (t, sample :: ss, r2)

/-- Outer iteration loop: appends each iteration total to the results array and
each sample to the corresponding per-item row. -/

def simulateLoop (P : MathPrims) (fuel : ℕ) (params : List ItemParams) :
    ℕ → Rng → List ℚ → List (List ℚ) → Option (List ℚ × List (List ℚ) × Rng)
  | 0, r, accR, accM => some (accR, accM, r)
  | count + 1, r, accR, accM =>
    match simulateItemsAux P fuel 0 params r with
    | none => none
    | some (total, col, r1) =>
      simulateLoop P fuel params count r1 (accR ++ [total])
        (List.zipWith (fun row s => row ++ [s]) accM col)

structure SimOptions where
  seed : Option ℤ := none
  perItemSamples : Bool := false

structure SimResult where
  results : List ℚ
  stats : StatsRecord
  perItemSamples : Option (List (List ℚ))
  deriving DecidableEq, Repr

/-- Uniform stream used by the run: the seeded xorshift stream when a seed is
supplied (with the entropy fallback of createSeededRNG at seed 0), otherwise
Math.random, modelled by the entropy stream itself. -/

def mcStream (seed : Option ℤ) (entropy : ℕ → ℚ) : ℕ → ℚ :=
  match seed with
  | some s => rngValue (seedState s (entropy 0))
  | none => entropy

/-- The rationals contain no NaN, so the final isNaN scan never fires in the
embedding. -/

def jsIsNaN (_ : ℚ) : Bool := false

/-- runMonteCarlo. The second component of the result is the number of uniform
values consumed from the random stream (0 when validation fails, since the
stream is only created after all validation passes). The progress callback and
the console warnings change no numeric output and are omitted. When per-item
capture is off the loop simply skips the stores; the embedding computes the
matrix and drops it, which is observationally identical. -/

def runMonteCarlo (P : MathPrims) (fuel : ℕ) (iterations : ℚ) (items : List ItemRaw)
    (opts : SimOptions) (entropy : ℕ → ℚ) : Except SimError SimResult × ℕ :=
  if iterations.den ≠ 1 ∨ iterations ≤ 0 then (.error .invalidIterations, 0)
  else if items.length = 0 then (.error .emptyItems, 0)
  else
    match validateItems items with
    | .error e => (.error e, 0)
    | .ok validatedItems =>
      match computeParams validatedItems with
      | .error e => (.error e, 0)
      | .ok parametrosPERT =>
        let rng : Rng := ⟨mcStream opts.seed entropy, 0⟩
        let itN : ℕ := iterations.num.toNat
        match simulateLoop P fuel parametrosPERT itN rng [] (validatedItems.map fun _ => []) with
        | none => (.error .outOfFuel, 0)
        | some (results, matrix, rFinal) =>
          if results.any jsIsNaN then (.error .nanResults, rFinal.pos)
          else
            match getStatistics P results with
            | .error _ => (.error .emptyResults, rFinal.pos)
            | .ok stats =>
              (.ok ⟨results, stats, if opts.perItemSamples then some matrix else none⟩,
               rFinal.pos)

/-! ## Variance decomposition (calcularContribucionVarianza, src/visualizations.js lines 1014-1046) -/

structure Contribution where
  index : ℕ
  contribution : ℚ
  covariance : ℚ
  variance : ℚ
  deriving DecidableEq, Repr

/-- Population variance of the totals series, as computed at the top of
calcularContribucionVarianza. -/

def varTotalOf (totalSamples : List ℚ) : ℚ :=
  let nQ : ℚ := (totalSamples.length : ℚ)
  let meanTotal := jsSum totalSamples / nQ
  jsSum (totalSamples.map fun val => jsPow (val - meanTotal) 2) / nQ

def calcularContribucionVarianza (totalSamples : List ℚ) (perItemSamples : List (List ℚ)) :
    List Contribution :=
  let n := totalSamples.length
  let nQ : ℚ := (n : ℚ)
  let meanTotal := jsSum totalSamples / nQ
  let varTotal := jsSum (totalSamples.map fun val => jsPow (val - meanTotal) 2) / nQ
  perItemSamples.enum.map fun ie =>
    let itemSamples := ie.2
    let meanItem := jsSum itemSamples / nQ
    let covariance :=
      ((List.range n).map fun j =>
        (totalSamples.getD j 0 - meanTotal) * (itemSamples.getD j 0 - meanItem)).sum / nQ
    ⟨ie.1, covariance / varTotal * 100, covariance,
     jsSum (itemSamples.map fun val => jsPow (val - meanItem) 2) / nQ⟩

instance {ε α : Type} [DecidableEq ε] [DecidableEq α] : DecidableEq (Except ε α) := fun x y =>
  match x, y with
  | .error a, .error b =>
    if h : a = b then isTrue (by rw [h]) else isFalse (by simp [h])
  | .error _, .ok _ => isFalse (by simp)
  | .ok _, .error _ => isFalse (by simp)
  | .ok a, .ok b =>
    if h : a = b then isTrue (by rw [h]) else isFalse (by simp [h])

/-! ## Claim C9: the mode estimator -/

/-- Number of elements of the series falling into the bucket with key k
(values rounded to two decimal places). -/

def countRound (rs : List ℚ) (k : ℚ) : ℕ := rs.countP (fun v => decide (round2 v = k))

/-- Frequency recorded in the histogram for key k (0 when absent). -/

def histFreq : List (ℚ × ℕ) → ℚ → ℕ
  | [], _ => 0
  | (k', f) :: t, k => if k' = k then f else histFreq t k

/-! ## Claim C4: validation happens before any randomness is consumed -/

/-- A raw item passes validation: all three fields parse to numbers and the
range condition a ≤ m ≤ b holds. -/

def itemOk (item : ItemRaw) : Bool :=
  match item.a, item.m, item.b with
  | some a, some m, some b => decide (a ≤ m) && decide (m ≤ b)
  | _, _, _ => false

/-- The precondition of runMonteCarlo: a positive integer iteration count, a
non-empty item list, and every item valid. -/

def validInput (iterations : ℚ) (items : List ItemRaw) : Bool :=
  decide (iterations.den = 1) && decide (0 < iterations) && !items.isEmpty && items.all itemOk

/-! ## Inversion of a successful run and the simulation loop invariants -/

def defaultItemParams : ItemParams := ⟨⟨0, 0, false, none⟩, 0, 0, ""⟩

def defaultItemRaw : ItemRaw := ⟨none, none, none, none⟩

def defaultItem : Item := ⟨0, 0, 0, ""⟩

theorem jsFloor_eq_floor (q : ℚ) : jsFloor q = ⌊q⌋ := by
  rw [jsFloor, Rat.floor_def, Int.fdiv_eq_ediv _ (Int.ofNat_nonneg q.den)]

theorem jsAbs_eq_abs (q : ℚ) : jsAbs q = |q| := by
  rcases lt_or_le q 0 with h | h
  · rw [jsAbs, if_pos h, abs_of_neg h]
  · rw [jsAbs, if_neg (not_lt.mpr h), abs_of_nonneg h]

theorem jsSum_eq_sum (l : List ℚ) : jsSum l = l.sum := by
  have h : ∀ (a : ℚ) (l : List ℚ), l.foldl (· + ·) a = a + l.sum := by
    intro a l
    induction l generalizing a with
    | nil => simp
    | cons x t ih => simp [List.foldl_cons, ih (a + x), add_assoc]
  simpa using h 0 l

theorem xorshiftStep_lt (s : ℕ) : xorshiftStep s < UINT32_MOD := by
  unfold xorshiftStep
  exact Nat.mod_lt _ (by norm_num [UINT32_MOD])

theorem rngStateAfter_lt (init k : ℕ) : rngStateAfter init k < UINT32_MOD := by
  cases k with
  | zero => exact xorshiftStep_lt init
  | succ k => exact xorshiftStep_lt _

theorem xorshiftStep_zero : xorshiftStep 0 = 0 := by decide

theorem rngStateAfter_zero (k : ℕ) : rngStateAfter 0 k = 0 := by
  induction k with
  | zero => exact xorshiftStep_zero
  | succ k ih => simpa [rngStateAfter, ih] using xorshiftStep_zero

/-! ## Claim C5: range of the RNG output -/

/-- C5 counterexample: with the concrete nonzero seed 1584200935 the very first
value emitted by the seeded generator is exactly 1 (the advanced state is
0xFFFFFFFF and the normalisation divides by 0xFFFFFFFF), so the output is not
strictly below 1. -/

theorem c5_rng_value_one_counterexample :
    createdValue 1584200935 0 0 = 1 ∧ ¬ createdValue 1584200935 0 0 < 1 := by
  constructor
  · with_unfolding_all decide
  · with_unfolding_all decide

/-- C5 (amended): for every integer seed, every entropy draw and every index,
the value produced by the procedure returned by createSeededRNG lies in the
closed interval [0, 1]: it is the 32 bit xorshift state divided by
0xFFFFFFFF, hence nonnegative and at most 1 (the value 1 is attained exactly
when the state is 0xFFFFFFFF). -/

theorem c5_rng_value_closed_unit_interval (seed : ℤ) (entropy : ℚ) (k : ℕ) :
    0 ≤ createdValue seed entropy k ∧ createdValue seed entropy k ≤ 1 := by
  unfold createdValue rngValue
  constructor
  · positivity
  · rw [div_le_one (by norm_num [RNG_DENOM])]
    have h := rngStateAfter_lt (seedState seed entropy) k
    have h2 : rngStateAfter (seedState seed entropy) k ≤ RNG_DENOM := by
      unfold UINT32_MOD at h
      unfold RNG_DENOM
      omega
    exact_mod_cast h2

/-! ## Claim C8: behaviour at seed zero -/

/-- C8 counterexample: with seed 0 the initial state is the entropy draw
`Math.floor(Math.random() * 0x7FFFFFFF)`, not a fixed default: two different
entropy values give two different first outputs, and the entropy value 0
gives internal state 0 and the constant zero stream. -/

theorem c8_zero_seed_counterexample :
    createdValue 0 (1 / 2147483647) 0 ≠ createdValue 0 (2 / 2147483647) 0 ∧
    seedState 0 0 = 0 ∧ createdValue 0 0 0 = 0 ∧ createdValue 0 0 1 = 0 := by
  refine ⟨?_, ?_, ?_, ?_⟩ <;> with_unfolding_all decide

/-- C8 (amended): when the random source is created with seed 0, the zero seed
is replaced by the entropy-derived value `Math.floor(entropy * 0x7FFFFFFF)`;
the stream is the deterministic xorshift stream of that drawn state (so it is
reproducible only as a function of the entropy draw, not of the seed alone),
and when the drawn value is 0 the internal state is the absorbing zero state
and every emitted value is 0. -/

theorem c8_zero_seed_entropy_fallback (entropy : ℚ) (k : ℕ) :
    createdValue 0 entropy k = rngValue (jsToUint32 (jsFloor (entropy * 2147483647))) k ∧
    (jsFloor (entropy * 2147483647) = (0 : ℤ) → createdValue 0 entropy k = 0) := by
  constructor
  · unfold createdValue seedState
    simp
  · intro h
    unfold createdValue seedState
    simp [h, jsToUint32, rngValue, rngStateAfter_zero]

/-- Witness for the amended C8 theorem at the concrete entropy draw 0 and
index 1. -/

theorem c8_zero_seed_entropy_fallback_witness :
    createdValue 0 0 1 = 0 :=
  (c8_zero_seed_entropy_fallback 0 1).2 (by with_unfolding_all decide)

/-- C3: for every rational triple (a, m, b), if |b - a| < 1e-10 the PERT
parameterizer returns the degenerate constant marker with value a without any
range validation; otherwise it fails with the invalid-range error exactly when
a ≤ m ≤ b does not hold, and otherwise returns alpha = 1 + 4(m-a)/(b-a) and
beta = 1 + 4(b-m)/(b-a). -/

theorem c3_pert_parameterizer_policy (a m b : ℚ) :
    (|b - a| < EPS10 → calcularParametrosBetaPERT a m b = .ok ⟨0, 0, true, some a⟩) ∧
    (EPS10 ≤ |b - a| →
      ((¬ (a ≤ m ∧ m ≤ b) →
        calcularParametrosBetaPERT a m b = .error "Valores invalidos: a <= m <= b no se cumple") ∧
       (a ≤ m ∧ m ≤ b →
        calcularParametrosBetaPERT a m b =
          .ok ⟨1 + 4 * (m - a) / (b - a), 1 + 4 * (b - m) / (b - a), false, none⟩))) := by
  rw [calcularParametrosBetaPERT, jsAbs_eq_abs]
  refine ⟨fun h => ?_, fun h => ⟨fun hbad => ?_, fun hgood => ?_⟩⟩
  · rw [if_pos h]
  · have hnlt : ¬ |b - a| < EPS10 := not_lt.mpr h
    have hor : a > m ∨ m > b := by
      rcases not_and_or.mp hbad with h1 | h2
      · exact Or.inl (lt_of_not_le h1)
      · exact Or.inr (lt_of_not_le h2)
    rw [if_neg hnlt, if_pos hor]
  · have hnlt : ¬ |b - a| < EPS10 := not_lt.mpr h
    have hor : ¬ (a > m ∨ m > b) := by
      push_neg
      exact ⟨hgood.1, hgood.2⟩
    rw [if_neg hnlt, if_neg hor]

/-- Witness for C3 at concrete inputs: the invalid triple (10, 20, 15) fails
with the invalid-range error, the valid triple (10, 15, 20) produces the PERT
shapes (3, 3), and the degenerate triple (1, 99, 1) returns the constant
marker 1 even though the range condition is violated. -/

theorem c3_pert_parameterizer_policy_witness :
    calcularParametrosBetaPERT 10 20 15 = .error "Valores invalidos: a <= m <= b no se cumple" ∧
    calcularParametrosBetaPERT 10 15 20 = .ok ⟨3, 3, false, none⟩ ∧
    calcularParametrosBetaPERT 1 99 1 = .ok ⟨0, 0, true, some 1⟩ := by
  refine ⟨((c3_pert_parameterizer_policy 10 20 15).2 (by norm_num [EPS10]) |>.1) (by norm_num), ?_, ?_⟩
  · have h := ((c3_pert_parameterizer_policy 10 15 20).2 (by norm_num [EPS10])).2 (by norm_num)
    rw [h]
    norm_num
  · have h := (c3_pert_parameterizer_policy 1 99 1).1 (by norm_num [EPS10])
    simpa using h

/-! ## Claim C2: the percentile fields of the statistics record -/

theorem jsCeil_eq_ceil (q : ℚ) : jsCeil q = ⌈q⌉ := by
  rw [jsCeil, jsFloor_eq_floor, Int.floor_neg, neg_neg]

theorem jsFloor_natCast (m : ℕ) : jsFloor (m : ℚ) = m := by
  rw [jsFloor_eq_floor, Int.floor_natCast]

theorem jsCeil_natCast (m : ℕ) : jsCeil (m : ℚ) = m := by
  rw [jsCeil_eq_ceil, Int.ceil_natCast]

theorem jsFloor_sub_half (m : ℕ) : jsFloor ((m : ℚ) - 1 / 2) = (m : ℤ) - 1 := by
  rw [jsFloor_eq_floor, Int.floor_eq_iff]
  constructor
  · push_cast
    linarith
  · push_cast
    linarith

theorem jsCeil_sub_half (m : ℕ) : jsCeil ((m : ℚ) - 1 / 2) = (m : ℤ) := by
  rw [jsCeil_eq_ceil, Int.ceil_eq_iff]
  constructor
  · push_cast
    linarith
  · push_cast
    linarith

/-- The median formula of getStatistics (midpoint average for even length,
middle element for odd length) coincides with the interpolated percentile of
the visualization layer at p = 0.5, on any non-empty array. -/

theorem medianFormula_eq_percentile_half (s : List ℚ) (h : s ≠ []) :
    (if s.length % 2 = 0 then (s.getD (s.length / 2 - 1) 0 + s.getD (s.length / 2) 0) / 2
     else s.getD (s.length / 2) 0) = percentile s (50 / 100) := by
  have hn : s.length ≠ 0 := by simpa using h
  have h2 : ¬ ((50 : ℚ) / 100 ≤ 0) := by norm_num
  have h3 : ¬ ((1 : ℚ) ≤ 50 / 100) := by norm_num
  simp only [percentile]
  rw [if_neg hn, if_neg h2, if_neg h3]
  rcases Nat.even_or_odd s.length with he | ho
  · obtain ⟨m, hm⟩ := he
    have hm1 : 1 ≤ m := by omega
    have hpar : s.length % 2 = 0 := by omega
    rw [if_pos hpar]
    have hidx : (50 / 100 : ℚ) * ((s.length : ℚ) - 1) = (m : ℚ) - 1 / 2 := by
      rw [hm]
      push_cast
      ring
    rw [hidx, jsFloor_sub_half, jsCeil_sub_half]
    have hne2 : ((m : ℤ) - 1) ≠ (m : ℤ) := by omega
    rw [if_neg hne2]
    have ht1 : ((m : ℤ) - 1).toNat = m - 1 := by omega
    have ht2 : ((m : ℤ)).toNat = m := by omega
    rw [ht1, ht2]
    have hd1 : s.length / 2 - 1 = m - 1 := by omega
    have hd2 : s.length / 2 = m := by omega
    rw [hd1, hd2]
    have hw : ((m : ℚ) - 1 / 2) - (((m : ℤ) - 1 : ℤ) : ℚ) = 1 / 2 := by
      push_cast
      ring
    rw [hw]
    ring
  · obtain ⟨m, hm⟩ := ho
    have hpar : ¬ s.length % 2 = 0 := by omega
    rw [if_neg hpar]
    have hidx : (50 / 100 : ℚ) * ((s.length : ℚ) - 1) = (m : ℚ) := by
      rw [hm]
      push_cast
      ring
    rw [hidx, jsFloor_natCast, jsCeil_natCast, if_pos rfl]
    have ht2 : ((m : ℤ)).toNat = m := by omega
    rw [ht2]
    have hd : s.length / 2 = m := by omega
    rw [hd]

set_option maxRecDepth 8000 in

/-- C2 counterexample: on the results series [0, 10] the statistics record has
percentile5 = 0 and percentile95 = 10 (floor-rank order statistics), while the
linearly interpolated order statistics at p = 0.05 and p = 0.95 are 1/2 and
19/2, so the percentile5 and percentile95 fields are not the interpolated
order statistics. -/

theorem c2_percentile_fields_counterexample :
    (getStatistics simplePrims [0, 10]).map (fun st => st.percentile5) = .ok 0 ∧
    percentile (List.insertionSort (· ≤ ·) [0, 10]) (5 / 100) = 1 / 2 ∧
    (getStatistics simplePrims [0, 10]).map (fun st => st.percentile95) = .ok 10 ∧
    percentile (List.insertionSort (· ≤ ·) [0, 10]) (95 / 100) = 19 / 2 ∧
    (0 : ℚ) ≠ 1 / 2 ∧ (10 : ℚ) ≠ 19 / 2 := by
  refine ⟨?_, ?_, ?_, ?_, ?_, ?_⟩ <;> with_unfolding_all decide

/-- C2 (amended): for every non-empty results series, percentile5 and
percentile95 of the statistics record are the floor-rank order statistics
sorted[floor(0.05 n)] and sorted[floor(0.95 n)] of the sorted series (not
interpolated), while percentile50 equals the median, which does coincide with
the linearly interpolated order statistic at p = 0.5 (index p (n-1),
interpolating between floor and ceiling ranks by the fractional part). -/

theorem c2_percentile_fields (P : MathPrims) (results : List ℚ) (st : StatsRecord)
    (hok : getStatistics P results = .ok st) :
    st.percentile5 =
      (List.insertionSort (· ≤ ·) results).getD
        (jsFloor ((results.length : ℚ) * (5 / 100))).toNat 0 ∧
    st.percentile95 =
      (List.insertionSort (· ≤ ·) results).getD
        (jsFloor ((results.length : ℚ) * (95 / 100))).toNat 0 ∧
    st.percentile50 = st.median ∧
    st.percentile50 = percentile (List.insertionSort (· ≤ ·) results) (50 / 100) := by
  have hne : results.length ≠ 0 := by
    intro h0
    rw [getStatistics, if_pos h0] at hok
    exact Except.noConfusion hok
  rw [getStatistics, if_neg hne] at hok
  have hst := (Except.ok.injEq _ _).mp hok
  subst hst
  refine ⟨rfl, rfl, rfl, ?_⟩
  have hs : (List.insertionSort (· ≤ ·) results) ≠ [] := by
    intro hnil
    apply hne
    have := List.length_insertionSort (· ≤ ·) results
    rw [hnil] at this
    simpa using this.symm
  have h := medianFormula_eq_percentile_half (List.insertionSort (· ≤ ·) results) hs
  rw [List.length_insertionSort] at h
  exact h

set_option maxRecDepth 8000 in

/-- Witness for the amended C2 theorem on the concrete series [1, 2]. -/

theorem c2_percentile_fields_witness :
    getStatistics simplePrims [1, 2] =
      .ok ⟨1, 2, 3 / 2, 3 / 2, 1, 1 / 4, 0, 13, 1, 3 / 2, 2, 329 / 1600⟩ ∧
    (3 / 2 : ℚ) = percentile (List.insertionSort (· ≤ ·) [1, 2]) (50 / 100) := by
  have hok : getStatistics simplePrims [1, 2] =
      .ok ⟨1, 2, 3 / 2, 3 / 2, 1, 1 / 4, 0, 13, 1, 3 / 2, 2, 329 / 1600⟩ := by
    with_unfolding_all decide
  have h := (c2_percentile_fields simplePrims [1, 2] _ hok).2.2.2
  exact ⟨hok, h⟩

theorem histFreq_upsert_same (h : List (ℚ × ℕ)) (k : ℚ) :
    histFreq (histUpsert h k) k = histFreq h k + 1 := by
  induction h with
  | nil => simp [histUpsert, histFreq]
  | cons p t ih =>
    obtain ⟨k', f⟩ := p
    by_cases hk : k' = k
    · subst hk
      simp [histUpsert, histFreq]
    · simp [histUpsert, histFreq, hk, ih]

theorem histFreq_upsert_other (h : List (ℚ × ℕ)) (k k' : ℚ) (hne : k' ≠ k) :
    histFreq (histUpsert h k) k' = histFreq h k' := by
  have hkk : ¬ k = k' := fun hh => hne hh.symm
  induction h with
  | nil => simp [histUpsert, histFreq, hkk]
  | cons p t ih =>
    obtain ⟨k0, f⟩ := p
    by_cases hk : k0 = k
    · subst hk
      simp [histUpsert, histFreq, hkk]
    · by_cases hk' : k0 = k'
      · subst hk'
        simp [histUpsert, histFreq, hk]
      · simp [histUpsert, histFreq, hk, hk', ih]

theorem histUpsert_keys (h : List (ℚ × ℕ)) (k : ℚ) :
    (histUpsert h k).map Prod.fst =
      if k ∈ h.map Prod.fst then h.map Prod.fst else h.map Prod.fst ++ [k] := by
  induction h with
  | nil => simp [histUpsert]
  | cons p t ih =>
    obtain ⟨k0, f⟩ := p
    by_cases hk : k0 = k
    · subst hk
      simp [histUpsert]
    · have hne : ¬ k = k0 := fun hh => hk hh.symm
      by_cases hmem : k ∈ t.map Prod.fst
      · simp [histUpsert, hk, ih, hmem, hne]
      · simp [histUpsert, hk, ih, hmem, hne]

theorem histUpsert_keys_nodup (h : List (ℚ × ℕ)) (k : ℚ)
    (hn : ((h.map Prod.fst) : List ℚ).Nodup) :
    ((histUpsert h k).map Prod.fst).Nodup := by
  rw [histUpsert_keys]
  by_cases hmem : k ∈ h.map Prod.fst
  · rwa [if_pos hmem]
  · rw [if_neg hmem, List.nodup_append]
    refine ⟨hn, List.nodup_singleton k, fun x hx hk => ?_⟩
    have hxk : x = k := by simpa using hk
    exact hmem (hxk ▸ hx)

theorem histUpsert_pos (h : List (ℚ × ℕ)) (k : ℚ)
    (hp : ∀ p ∈ h, 0 < p.2) : ∀ p ∈ histUpsert h k, 0 < p.2 := by
  induction h with
  | nil =>
    intro p hp2
    have hpk : p = (k, 1) := by simpa [histUpsert] using hp2
    rw [hpk]
    norm_num
  | cons q t ih =>
    obtain ⟨k0, f⟩ := q
    intro p hmem
    by_cases hk : k0 = k
    · subst hk
      simp only [histUpsert, if_pos rfl] at hmem
      rcases List.mem_cons.mp hmem with h1 | h1
      · rw [h1]
        norm_num
      · exact hp p (List.mem_cons_of_mem _ h1)
    · simp only [histUpsert, if_neg hk] at hmem
      rcases List.mem_cons.mp hmem with h1 | h1
      · rw [h1]
        exact hp (k0, f) (List.mem_cons_self _ _)
      · exact ih (fun q hq => hp q (List.mem_cons_of_mem _ hq)) p h1

theorem histFreq_entry (h : List (ℚ × ℕ)) (hn : ((h.map Prod.fst) : List ℚ).Nodup) :
    ∀ p ∈ h, histFreq h p.1 = p.2 := by
  induction h with
  | nil => intro p hp; simp at hp
  | cons q t ih =>
    obtain ⟨k0, f⟩ := q
    rw [List.map_cons] at hn
    obtain ⟨hn1, hn2⟩ := List.nodup_cons.mp hn
    intro p hp
    rcases List.mem_cons.mp hp with h1 | h1
    · rw [h1]
      simp [histFreq]
    · have hpf : p.1 ∈ t.map Prod.fst := List.mem_map_of_mem Prod.fst h1
      have hne : ¬ k0 = p.1 := fun he => hn1 (he ▸ hpf)
      simp only [histFreq, if_neg hne]
      exact ih hn2 p h1

theorem histFreq_pos_mem (h : List (ℚ × ℕ)) (k : ℚ) (hpos : 0 < histFreq h k) :
    k ∈ h.map Prod.fst := by
  induction h with
  | nil => simp [histFreq] at hpos
  | cons q t ih =>
    obtain ⟨k0, f⟩ := q
    by_cases hk : k0 = k
    · simp [hk]
    · simp [histFreq, hk] at hpos
      simpa using Or.inr (ih hpos)

/-- Invariant of the histogram build: key list has no duplicates, every entry
frequency is positive and equals the bucket count of the remaining input. -/

theorem buildHist_invariant (rs : List ℚ) :
    ∀ (h : List (ℚ × ℕ)), ((h.map Prod.fst) : List ℚ).Nodup → (∀ p ∈ h, 0 < p.2) →
      (((rs.foldl (fun h v => histUpsert h (round2 v)) h).map Prod.fst)).Nodup ∧
      (∀ p ∈ rs.foldl (fun h v => histUpsert h (round2 v)) h, 0 < p.2) ∧
      (∀ k, histFreq (rs.foldl (fun h v => histUpsert h (round2 v)) h) k =
        histFreq h k + countRound rs k) := by
  induction rs with
  | nil =>
    intro h hn hp
    refine ⟨hn, hp, fun k => ?_⟩
    simp [countRound]
  | cons v t ih =>
    intro h hn hp
    have hn' := histUpsert_keys_nodup h (round2 v) hn
    have hp' := histUpsert_pos h (round2 v) hp
    obtain ⟨a1, a2, a3⟩ := ih (histUpsert h (round2 v)) hn' hp'
    refine ⟨by simpa using a1, by simpa using a2, fun k => ?_⟩
    have hc : countRound (v :: t) k =
        (if round2 v = k then 1 else 0) + countRound t k := by
      simp [countRound, List.countP_cons]
      by_cases hvk : round2 v = k
      · simp [hvk]
        omega
      · simp [hvk]
    rw [List.foldl_cons, a3 k, hc]
    by_cases hvk : round2 v = k
    · subst hvk
      rw [histFreq_upsert_same]
      simp
      omega
    · rw [histFreq_upsert_other h (round2 v) k (fun hh => hvk hh.symm)]
      simp [hvk]

theorem buildHist_nodup (rs : List ℚ) : (((buildHist rs).map Prod.fst) : List ℚ).Nodup :=
  (buildHist_invariant rs [] (by simp) (by simp)).1

theorem buildHist_pos (rs : List ℚ) : ∀ p ∈ buildHist rs, 0 < p.2 :=
  (buildHist_invariant rs [] (by simp) (by simp)).2.1

theorem buildHist_freq (rs : List ℚ) (k : ℚ) : histFreq (buildHist rs) k = countRound rs k := by
  have h := (buildHist_invariant rs [] (by simp) (by simp)).2.2 k
  simpa [buildHist, histFreq] using h

theorem mem_jsEntries (h : List (ℚ × ℕ)) (p : ℚ × ℕ) : p ∈ jsEntries h ↔ p ∈ h := by
  unfold jsEntries
  rw [List.mem_append, List.mem_insertionSort]
  constructor
  · rintro (hm | hm)
    · exact (List.mem_filter.mp hm).1
    · exact (List.mem_filter.mp hm).1
  · intro hm
    by_cases hq : isArrayIndexKey p.1
    · exact Or.inl (List.mem_filter.mpr ⟨hm, hq⟩)
    · exact Or.inr (List.mem_filter.mpr ⟨hm, by simpa using hq⟩)

theorem modeScan_spec (entries : List (ℚ × ℕ)) :
    ∀ acc : ℚ × ℕ,
      acc.2 ≤ (entries.foldl (fun acc e => if e.2 > acc.2 then (e.1, e.2) else acc) acc).2 ∧
      (∀ e ∈ entries,
        e.2 ≤ (entries.foldl (fun acc e => if e.2 > acc.2 then (e.1, e.2) else acc) acc).2) ∧
      ((entries.foldl (fun acc e => if e.2 > acc.2 then (e.1, e.2) else acc) acc) = acc ∨
        (entries.foldl (fun acc e => if e.2 > acc.2 then (e.1, e.2) else acc) acc) ∈ entries) := by
  induction entries with
  | nil => intro acc; simp
  | cons e t ih =>
    intro acc
    rw [List.foldl_cons]
    by_cases hgt : e.2 > acc.2
    · rw [if_pos hgt]
      obtain ⟨b1, b2, b3⟩ := ih (e.1, e.2)
      refine ⟨le_trans (le_of_lt hgt) b1, ?_, ?_⟩
      · intro e' he'
        rcases List.mem_cons.mp he' with h1 | h1
        · subst h1
          exact b1
        · exact b2 e' h1
      · rcases b3 with h1 | h1
        · rw [h1]
          simp
        · exact Or.inr (List.mem_cons_of_mem _ h1)
    · rw [if_neg hgt]
      obtain ⟨b1, b2, b3⟩ := ih acc
      refine ⟨b1, ?_, ?_⟩
      · intro e' he'
        rcases List.mem_cons.mp he' with h1 | h1
        · subst h1
          exact le_trans (le_of_not_lt hgt) b1
        · exact b2 e' h1
      · rcases b3 with h1 | h1
        · exact Or.inl h1
        · exact Or.inr (List.mem_cons_of_mem _ h1)

set_option maxRecDepth 8000 in

/-- C9 counterexample: on the series [1.234, 1.234, 9] the mode field is 1.23,
the rounded bucket key, which is not an element of the series (the original
value in the winning bucket is 1.234), so the mode is not an original series
value. -/

theorem c9_mode_counterexample :
    (getStatistics simplePrims [1234 / 1000, 1234 / 1000, 9]).map (fun st => st.mode) =
      .ok (123 / 100) ∧
    (123 / 100 : ℚ) ∉ [1234 / 1000, 1234 / 1000, (9 : ℚ)] := by
  constructor
  · with_unfolding_all decide
  · with_unfolding_all decide

/-- C9 (amended): for every results series accepted by getStatistics, the mode
field is a bucket key of the histogram of values rounded to two decimal places
(so it is a rounded value, in general not an original series value), and its
bucket frequency is maximal among all buckets of the series; ties are broken by
the first maximal entry in the enumeration order of the histogram object, and
the scan defaults to the mean when no values exist. -/

theorem c9_mode_bucketing (P : MathPrims) (results : List ℚ) (st : StatsRecord)
    (hok : getStatistics P results = .ok st) :
    (∃ v ∈ results, st.mode = round2 v) ∧
    (∀ v ∈ results, countRound results (round2 v) ≤ countRound results st.mode) := by
  have hne : results.length ≠ 0 := by
    intro h0
    rw [getStatistics, if_pos h0] at hok
    exact Except.noConfusion hok
  rw [getStatistics, if_neg hne] at hok
  have hst := (Except.ok.injEq _ _).mp hok
  subst hst
  obtain ⟨v0, hv0⟩ := List.exists_mem_of_ne_nil results (by
    intro hh
    rw [hh] at hne
    simp at hne)
  set E := jsEntries (buildHist results) with hE
  set mean := jsSum results / ((results.length : ℕ) : ℚ) with hmean
  obtain ⟨s1, s2, s3⟩ := modeScan_spec E (mean, 0)
  set res := E.foldl (fun acc e => if e.2 > acc.2 then (e.1, e.2) else acc) (mean, 0) with hres
  -- the scan cannot stay at the default (mean, 0): the bucket of v0 is present
  have hv0pos : 0 < countRound results (round2 v0) := by
    rw [countRound, List.countP_pos_iff]
    exact ⟨v0, hv0, by simp⟩
  have hv0mem : round2 v0 ∈ (buildHist results).map Prod.fst := by
    apply histFreq_pos_mem
    rw [buildHist_freq]
    exact hv0pos
  obtain ⟨p0, hp0mem, hp0fst⟩ := List.mem_map.mp hv0mem
  have hp0E : p0 ∈ E := (mem_jsEntries _ _).mpr hp0mem
  have hp0pos : 0 < p0.2 := buildHist_pos results p0 hp0mem
  have hresE : res ∈ E := by
    rcases s3 with h1 | h1
    · exfalso
      have := s2 p0 hp0E
      rw [h1] at this
      simp at this
      omega
    · exact h1
  have hresH : res ∈ buildHist results := (mem_jsEntries _ _).mp hresE
  have hresfreq : histFreq (buildHist results) res.1 = res.2 :=
    histFreq_entry (buildHist results) (buildHist_nodup results) res hresH
  have hrescount : countRound results res.1 = res.2 := by
    rw [← buildHist_freq]
    exact hresfreq
  have hrespos : 0 < res.2 := buildHist_pos results res hresH
  constructor
  · -- the mode is the rounded value of some series element
    have hc : 0 < countRound results res.1 := by omega
    rw [countRound, List.countP_pos_iff] at hc
    obtain ⟨v, hv, hvk⟩ := hc
    refine ⟨v, hv, ?_⟩
    have hvres : round2 v = res.1 := by simpa using hvk
    show res.1 = round2 v
    exact hvres.symm
  · intro v hv
    show countRound results (round2 v) ≤ countRound results res.1
    have hvpos : 0 < countRound results (round2 v) := by
      rw [countRound, List.countP_pos_iff]
      exact ⟨v, hv, by simp⟩
    have hvmem : round2 v ∈ (buildHist results).map Prod.fst := by
      apply histFreq_pos_mem
      rw [buildHist_freq]
      exact hvpos
    obtain ⟨p, hpmem, hpfst⟩ := List.mem_map.mp hvmem
    have hpfreq : histFreq (buildHist results) p.1 = p.2 :=
      histFreq_entry (buildHist results) (buildHist_nodup results) p hpmem
    have hpcount : countRound results (round2 v) = p.2 := by
      rw [← hpfst, ← buildHist_freq]
      exact hpfreq
    have hple : p.2 ≤ res.2 := s2 p ((mem_jsEntries _ _).mpr hpmem)
    calc countRound results (round2 v) = p.2 := hpcount
      _ ≤ res.2 := hple
      _ = countRound results res.1 := hrescount.symm

set_option maxRecDepth 8000 in

/-- Witness for the amended C9 theorem on the concrete series [2, 2, 7]: the
mode is 2 and its bucket count 2 is maximal. -/

theorem c9_mode_bucketing_witness :
    ∃ st, getStatistics simplePrims [2, 2, 7] = .ok st ∧ st.mode = 2 ∧
      (∃ v ∈ [(2 : ℚ), 2, 7], st.mode = round2 v) ∧
      (∀ v ∈ [(2 : ℚ), 2, 7],
        countRound [(2 : ℚ), 2, 7] (round2 v) ≤ countRound [(2 : ℚ), 2, 7] st.mode) := by
  have hex : ∃ st, getStatistics simplePrims [2, 2, 7] = .ok st := by
    rw [getStatistics, if_neg (by norm_num)]
    exact ⟨_, rfl⟩
  obtain ⟨st, hok⟩ := hex
  refine ⟨st, hok, ?_, c9_mode_bucketing simplePrims [2, 2, 7] st hok⟩
  rw [getStatistics, if_neg (by norm_num)] at hok
  have hst := (Except.ok.injEq _ _).mp hok
  subst hst
  with_unfolding_all decide

theorem validateItem_ok_of (index : ℕ) (item : ItemRaw) (h : itemOk item = true) :
    ∃ v, validateItem index item = .ok v ∧ v.a ≤ v.m ∧ v.m ≤ v.b := by
  obtain ⟨oa, om, ob, oid⟩ := item
  cases oa with
  | none => simp [itemOk] at h
  | some a =>
    cases om with
    | none => simp [itemOk] at h
    | some m =>
      cases ob with
      | none => simp [itemOk] at h
      | some b =>
        simp only [itemOk, Bool.and_eq_true, decide_eq_true_eq] at h
        have hcond : ¬ (a > m ∨ m > b) := by
          push_neg
          exact ⟨h.1, h.2⟩
        exact ⟨⟨a, m, b,
          match oid with
          | some s => if s = "" then "item_" ++ toString (index + 1) else s
          | none => "item_" ++ toString (index + 1)⟩,
          by simp only [validateItem, if_neg hcond], h.1, h.2⟩

theorem validateItem_error_of (index : ℕ) (item : ItemRaw) (h : itemOk item = false) :
    ∃ e, validateItem index item = .error e ∧ e.isValidation = true := by
  obtain ⟨oa, om, ob, oid⟩ := item
  cases oa with
  | none => exact ⟨.nonNumericItem index, rfl, rfl⟩
  | some a =>
    cases om with
    | none => exact ⟨.nonNumericItem index, rfl, rfl⟩
    | some m =>
      cases ob with
      | none => exact ⟨.nonNumericItem index, rfl, rfl⟩
      | some b =>
        simp only [itemOk, Bool.and_eq_false_iff, decide_eq_false_iff_not, not_le] at h
        have hcond : a > m ∨ m > b := by
          rcases h with h | h
          · exact Or.inl h
          · exact Or.inr h
        exact ⟨.invalidRangeItem index, by simp only [validateItem, if_pos hcond], rfl⟩

theorem validateItemsFrom_ok (items : List ItemRaw) :
    ∀ index, (∀ it ∈ items, itemOk it = true) →
      ∃ vs, validateItemsFrom index items = .ok vs ∧ ∀ v ∈ vs, v.a ≤ v.m ∧ v.m ≤ v.b := by
  induction items with
  | nil => intro index _; exact ⟨[], rfl, by simp⟩
  | cons it rest ih =>
    intro index hall
    obtain ⟨v, hv, hvr⟩ := validateItem_ok_of index it (hall it (List.mem_cons_self _ _))
    obtain ⟨vs, hvs, hvsr⟩ := ih (index + 1) (fun x hx => hall x (List.mem_cons_of_mem _ hx))
    refine ⟨v :: vs, ?_, ?_⟩
    · simp only [validateItemsFrom, hv, hvs]
    · intro x hx
      rcases List.mem_cons.mp hx with h1 | h1
      · rw [h1]
        exact hvr
      · exact hvsr x h1

theorem validateItemsFrom_error (items : List ItemRaw) :
    ∀ index, (∃ it ∈ items, itemOk it = false) →
      ∃ e, validateItemsFrom index items = .error e ∧ e.isValidation = true := by
  induction items with
  | nil => intro index h; simp at h
  | cons it rest ih =>
    intro index hbad
    cases hfirst : itemOk it with
    | false =>
      obtain ⟨e, he, hev⟩ := validateItem_error_of index it hfirst
      exact ⟨e, by simp only [validateItemsFrom, he], hev⟩
    | true =>
      obtain ⟨v, hv, _⟩ := validateItem_ok_of index it hfirst
      have hrest : ∃ x ∈ rest, itemOk x = false := by
        obtain ⟨x, hx, hxf⟩ := hbad
        rcases List.mem_cons.mp hx with h1 | h1
        · rw [h1] at hxf
          rw [hxf] at hfirst
          exact absurd hfirst (by simp)
        · exact ⟨x, h1, hxf⟩
      obtain ⟨e, he, hev⟩ := ih (index + 1) hrest
      refine ⟨e, ?_, hev⟩
      simp only [validateItemsFrom, hv, he]

theorem calcular_ok_of_range (a m b : ℚ) (h1 : a ≤ m) (h2 : m ≤ b) :
    ∃ p, calcularParametrosBetaPERT a m b = .ok p := by
  by_cases hd : jsAbs (b - a) < EPS10
  · exact ⟨_, by rw [calcularParametrosBetaPERT, if_pos hd]⟩
  · have hcond : ¬ (a > m ∨ m > b) := by
      push_neg
      exact ⟨h1, h2⟩
    exact ⟨_, by rw [calcularParametrosBetaPERT, if_neg hd, if_neg hcond]⟩

set_option maxHeartbeats 1600000 in

theorem computeParams_ok (vs : List Item) (h : ∀ v ∈ vs, v.a ≤ v.m ∧ v.m ≤ v.b) :
    ∃ ps, computeParams vs = .ok ps := by
  induction vs with
  | nil => exact ⟨[], rfl⟩
  | cons v rest ih =>
    obtain ⟨hr1, hr2⟩ := h v (List.mem_cons_self _ _)
    obtain ⟨p, hp⟩ := calcular_ok_of_range v.a v.m v.b hr1 hr2
    obtain ⟨ps, hps⟩ := ih (fun x hx => h x (List.mem_cons_of_mem _ hx))
    refine ⟨⟨p, v.a, v.b, v.id⟩ :: ps, ?_⟩
    unfold computeParams
    rw [hp, hps]

theorem simulateLoop_length (P : MathPrims) (fuel : ℕ) (params : List ItemParams) :
    ∀ (count : ℕ) (r : Rng) (accR : List ℚ) (accM : List (List ℚ))
      (res : List ℚ) (M : List (List ℚ)) (r' : Rng),
      simulateLoop P fuel params count r accR accM = some (res, M, r') →
      res.length = accR.length + count := by
  intro count
  induction count with
  | zero =>
    intro r accR accM res M r' h
    simp only [simulateLoop, Option.some.injEq, Prod.mk.injEq] at h
    obtain ⟨h1, h2, h3⟩ := h
    rw [← h1]
    simp
  | succ n ih =>
    intro r accR accM res M r' h
    simp only [simulateLoop] at h
    cases hsim : simulateItemsAux P fuel 0 params r with
    | none =>
      rw [hsim] at h
      exact Option.noConfusion h
    | some x =>
      obtain ⟨total, col, r1⟩ := x
      rw [hsim] at h
      have := ih r1 (accR ++ [total]) (List.zipWith (fun row s => row ++ [s]) accM col) res M r' h
      simp only [List.length_append, List.length_singleton] at this
      omega

theorem list_any_jsIsNaN (l : List ℚ) : l.any jsIsNaN = false := by
  induction l with
  | nil => rfl
  | cons x t ih => simp [List.any_cons, ih, jsIsNaN]

theorem list_isEmpty_false_of_length (l : List ItemRaw) (h : l.length ≠ 0) :
    l.isEmpty = false := by
  cases l with
  | nil => simp at h
  | cons x t => rfl

/-- C4: runMonteCarlo validates first. When the iteration count is not a
positive integer, or the item list is empty, or some item has a non-numeric
field or violates a ≤ m ≤ b, the run returns a validation error with zero
uniform draws consumed (the random stream is created only after validation);
conversely, on valid input no validation error is raised (every error of a
valid run is the fuel-exhaustion artefact of the embedding). -/

theorem c4_validation_fail_fast (P : MathPrims) (fuel : ℕ) (iterations : ℚ)
    (items : List ItemRaw) (opts : SimOptions) (entropy : ℕ → ℚ) :
    (validInput iterations items = false →
      ∃ e, SimError.isValidation e = true ∧
        runMonteCarlo P fuel iterations items opts entropy = (.error e, 0)) ∧
    (validInput iterations items = true →
      ∀ e, (runMonteCarlo P fuel iterations items opts entropy).1 = .error e →
        SimError.isValidation e = false) := by
  constructor
  · intro hv
    by_cases hi : iterations.den ≠ 1 ∨ iterations ≤ 0
    · exact ⟨.invalidIterations, rfl, by rw [runMonteCarlo, if_pos hi]⟩
    · by_cases hl : items.length = 0
      · exact ⟨.emptyItems, rfl, by rw [runMonteCarlo, if_neg hi, if_pos hl]⟩
      · push_neg at hi
        obtain ⟨hden, hpos⟩ := hi
        have hbad : ∃ it ∈ items, itemOk it = false := by
          cases hall : items.all itemOk with
          | true =>
            exfalso
            have : validInput iterations items = true := by
              simp [validInput, hden, hpos,
                list_isEmpty_false_of_length items hl, hall]
            rw [this] at hv
            exact Bool.noConfusion hv
          | false =>
            obtain ⟨x, hx, hxf⟩ := List.all_eq_false.mp hall
            exact ⟨x, hx, by simpa using hxf⟩
        obtain ⟨e, he, hev⟩ := validateItemsFrom_error items 0 hbad
        refine ⟨e, hev, ?_⟩
        rw [runMonteCarlo, if_neg (by push_neg; exact ⟨hden, hpos⟩), if_neg hl]
        rw [show validateItems items = .error e from he]
  · intro hv e he
    simp only [validInput, Bool.and_eq_true, decide_eq_true_eq, Bool.not_eq_true',
      List.all_eq_true] at hv
    obtain ⟨⟨⟨hden, hpos⟩, hemp⟩, hall⟩ := hv
    have hlen : items.length ≠ 0 := by
      intro h0
      rw [List.length_eq_zero] at h0
      rw [h0] at hemp
      exact Bool.noConfusion hemp
    obtain ⟨vs, hvs, hranges⟩ := validateItemsFrom_ok items 0 hall
    obtain ⟨ps, hps⟩ := computeParams_ok vs hranges
    rw [runMonteCarlo, if_neg (by push_neg; exact ⟨hden, hpos⟩), if_neg hlen] at he
    simp only [show validateItems items = .ok vs from hvs, hps] at he
    split at he
    · simp at he
      subst he
      rfl
    · rw [list_any_jsIsNaN] at he
      simp only [Bool.false_eq_true, if_false] at he
      split at he
      · simp at he
        subst he
        rfl
      · simp at he

/-- Witness for C4 at concrete inputs: the invalid item (10, 20, 15) makes the
run fail with a validation error and zero draws consumed, and on a valid
degenerate input every returned error (there is none) would be
non-validation. -/

theorem c4_validation_fail_fast_witness :
    (∃ e, SimError.isValidation e = true ∧
      runMonteCarlo simplePrims 1 5 [⟨some 10, some 20, some 15, none⟩] ⟨none, false⟩
        (fun _ => 0) = (.error e, 0)) ∧
    (∀ e, (runMonteCarlo simplePrims 1 2 [⟨some 5, some 5, some 5, none⟩] ⟨none, false⟩
        (fun _ => 0)).1 = .error e → SimError.isValidation e = false) :=
  ⟨(c4_validation_fail_fast simplePrims 1 5 [⟨some 10, some 20, some 15, none⟩]
      ⟨none, false⟩ (fun _ => 0)).1 (by with_unfolding_all decide),
   (c4_validation_fail_fast simplePrims 1 2 [⟨some 5, some 5, some 5, none⟩]
      ⟨none, false⟩ (fun _ => 0)).2 (by with_unfolding_all decide)⟩

/-- A successful run factors through validation, PERT parameter computation,
the simulation loop and the statistics engine. -/

theorem runMonteCarlo_ok_inversion (P : MathPrims) (fuel : ℕ) (iterations : ℚ)
    (items : List ItemRaw) (opts : SimOptions) (entropy : ℕ → ℚ) (res : SimResult) (c : ℕ)
    (hrun : runMonteCarlo P fuel iterations items opts entropy = (.ok res, c)) :
    ∃ vs ps results matrix rFinal stats,
      validateItems items = .ok vs ∧
      computeParams vs = .ok ps ∧
      simulateLoop P fuel ps iterations.num.toNat ⟨mcStream opts.seed entropy, 0⟩ []
        (vs.map fun _ => []) = some (results, matrix, rFinal) ∧
      getStatistics P results = .ok stats ∧
      res = ⟨results, stats, if opts.perItemSamples then some matrix else none⟩ ∧
      c = rFinal.pos := by
  by_cases hi : iterations.den ≠ 1 ∨ iterations ≤ 0
  · rw [runMonteCarlo, if_pos hi] at hrun
    simp at hrun
  · by_cases hl : items.length = 0
    · rw [runMonteCarlo, if_neg hi, if_pos hl] at hrun
      simp at hrun
    · rw [runMonteCarlo, if_neg hi, if_neg hl] at hrun
      cases hval : validateItems items with
      | error e =>
        rw [hval] at hrun
        simp at hrun
      | ok vs =>
        rw [hval] at hrun
        cases hcp : computeParams vs with
        | error e =>
          simp only [hcp] at hrun
          simp at hrun
        | ok ps =>
          simp only [hcp] at hrun
          cases hsim : simulateLoop P fuel ps iterations.num.toNat
              ⟨mcStream opts.seed entropy, 0⟩ [] (vs.map fun _ => []) with
          | none =>
            simp only [hsim] at hrun
            simp at hrun
          | some trio =>
            obtain ⟨results, matrix, rFinal⟩ := trio
            simp only [hsim, list_any_jsIsNaN, Bool.false_eq_true, if_false] at hrun
            cases hstat : getStatistics P results with
            | error e =>
              simp only [hstat] at hrun
              simp at hrun
            | ok stats =>
              simp only [hstat] at hrun
              rw [Prod.mk.injEq] at hrun
              obtain ⟨h1, h2⟩ := hrun
              have h3 := (Except.ok.injEq _ _).mp h1
              exact ⟨vs, ps, results, matrix, rFinal, stats, rfl, hcp, hsim, hstat,
                h3.symm, h2.symm⟩

theorem simulateItemsAux_spec (P : MathPrims) (fuel : ℕ) :
    ∀ (params : List ItemParams) (acc : ℚ) (r : Rng) (total : ℚ) (col : List ℚ) (r2 : Rng),
      simulateItemsAux P fuel acc params r = some (total, col, r2) →
      col.length = params.length ∧ total = List.foldl (· + ·) acc col := by
  intro params
  induction params with
  | nil =>
    intro acc r total col r2 h
    simp only [simulateItemsAux, Option.some.injEq, Prod.mk.injEq] at h
    obtain ⟨h1, h2, h3⟩ := h
    rw [← h1, ← h2]
    exact ⟨rfl, rfl⟩
  | cons p rest ih =>
    intro acc r total col r2 h
    simp only [simulateItemsAux] at h
    cases ho : simulateOneItem P fuel p r with
    | none =>
      rw [ho] at h
      exact Option.noConfusion h
    | some x =>
      obtain ⟨sample, r1⟩ := x
      simp only [ho] at h
      cases ha : simulateItemsAux P fuel (acc + sample) rest r1 with
      | none =>
        rw [ha] at h
        exact Option.noConfusion h
      | some y =>
        obtain ⟨t, ss, r3⟩ := y
        simp only [ha, Option.some.injEq, Prod.mk.injEq] at h
        obtain ⟨h1, h2, h3⟩ := h
        obtain ⟨ihl, iht⟩ := ih (acc + sample) r1 t ss r3 ha
        constructor
        · rw [← h2]
          simp [ihl]
        · rw [← h1, ← h2, iht]
          rfl

/-- The sample recorded for a degenerate (constant) item is always its
constant value, independent of the random stream. -/

theorem simulateItemsAux_constant_entry (P : MathPrims) (fuel : ℕ) (v : ℚ) :
    ∀ (params : List ItemParams) (j : ℕ) (acc : ℚ) (r : Rng)
      (total : ℚ) (col : List ℚ) (r2 : Rng),
      simulateItemsAux P fuel acc params r = some (total, col, r2) →
      j < params.length →
      (params.getD j defaultItemParams).pert.isConstant = true →
      (params.getD j defaultItemParams).pert.constantValue = some v →
      col.getD j 0 = v := by
  intro params
  induction params with
  | nil =>
    intro j acc r total col r2 h hj
    simp at hj
  | cons p rest ih =>
    intro j acc r total col r2 h hj hconst hcv
    simp only [simulateItemsAux] at h
    cases ho : simulateOneItem P fuel p r with
    | none =>
      rw [ho] at h
      exact Option.noConfusion h
    | some x =>
      obtain ⟨sample, r1⟩ := x
      simp only [ho] at h
      cases ha : simulateItemsAux P fuel (acc + sample) rest r1 with
      | none =>
        rw [ha] at h
        exact Option.noConfusion h
      | some y =>
        obtain ⟨t, ss, r3⟩ := y
        simp only [ha, Option.some.injEq, Prod.mk.injEq] at h
        obtain ⟨h1, h2, h3⟩ := h
        cases j with
        | zero =>
          have hp : p.pert.isConstant = true := hconst
          have hv : p.pert.constantValue = some v := hcv
          have hone : simulateOneItem P fuel p r = some (v, r) := by
            rw [simulateOneItem, if_pos hp, hv]
            rfl
          rw [ho] at hone
          have := (Option.some.injEq _ _).mp hone
          rw [← h2]
          simp [List.getD]
          exact ((Prod.mk.injEq _ _ _ _).mp this).1
        | succ j =>
          have hj' : j < rest.length := by simpa using hj
          have := ih j (acc + sample) r1 t ss r3 ha hj' hconst hcv
          rw [← h2]
          simpa using this

theorem zipWith_append_getD (accM : List (List ℚ)) (col : List ℚ) (j : ℕ)
    (h1 : j < accM.length) (h2 : j < col.length) :
    (List.zipWith (fun row s => row ++ [s]) accM col).getD j [] =
      accM.getD j [] ++ [col.getD j 0] := by
  have hlen : j < (List.zipWith (fun row s => row ++ [s]) accM col).length := by
    rw [List.length_zipWith]
    exact lt_min h1 h2
  rw [List.getD_eq_getElem _ _ hlen, List.getElem_zipWith,
    List.getD_eq_getElem _ _ h1, List.getD_eq_getElem _ _ h2]

/-- The per-item row of a degenerate item only ever receives its constant
value. -/

theorem simulateLoop_constant_row (P : MathPrims) (fuel : ℕ) (params : List ItemParams)
    (j : ℕ) (v : ℚ) (hj : j < params.length)
    (hconst : (params.getD j defaultItemParams).pert.isConstant = true)
    (hcv : (params.getD j defaultItemParams).pert.constantValue = some v) :
    ∀ (count : ℕ) (r : Rng) (accR : List ℚ) (accM : List (List ℚ))
      (res : List ℚ) (M : List (List ℚ)) (r' : Rng),
      accM.length = params.length →
      (∀ x ∈ accM.getD j [], x = v) →
      simulateLoop P fuel params count r accR accM = some (res, M, r') →
      ∀ x ∈ M.getD j [], x = v := by
  intro count
  induction count with
  | zero =>
    intro r accR accM res M r' hlen hacc h
    simp only [simulateLoop, Option.some.injEq, Prod.mk.injEq] at h
    obtain ⟨h1, h2, h3⟩ := h
    rw [← h2]
    exact hacc
  | succ n ih =>
    intro r accR accM res M r' hlen hacc h
    simp only [simulateLoop] at h
    cases hsim : simulateItemsAux P fuel 0 params r with
    | none =>
      rw [hsim] at h
      exact Option.noConfusion h
    | some x =>
      obtain ⟨total, col, r1⟩ := x
      simp only [hsim] at h
      obtain ⟨hcl, _⟩ := simulateItemsAux_spec P fuel params 0 r total col r1 hsim
      have hentry : col.getD j 0 = v :=
        simulateItemsAux_constant_entry P fuel v params j 0 r total col r1 hsim hj hconst hcv
      apply ih r1 (accR ++ [total]) _ res M r' _ _ h
      · rw [List.length_zipWith, hlen, hcl]
        exact min_self _
      · rw [zipWith_append_getD accM col j (by omega) (by omega)]
        intro x hx
        rcases List.mem_append.mp hx with hx1 | hx1
        · exact hacc x hx1
        · rw [List.mem_singleton.mp hx1, hentry]

theorem validateItem_fields (index : ℕ) (item : ItemRaw) (v : Item)
    (h : validateItem index item = .ok v) :
    item.a = some v.a ∧ item.m = some v.m ∧ item.b = some v.b := by
  obtain ⟨oa, om, ob, oid⟩ := item
  cases oa with
  | none => exact Except.noConfusion h
  | some a =>
    cases om with
    | none => exact Except.noConfusion h
    | some m =>
      cases ob with
      | none => exact Except.noConfusion h
      | some b =>
        by_cases hc : a > m ∨ m > b
        · rw [validateItem] at h
          simp only [if_pos hc] at h
          exact Except.noConfusion h
        · rw [validateItem] at h
          simp only [if_neg hc, Except.ok.injEq] at h
          rw [← h]
          exact ⟨rfl, rfl, rfl⟩

theorem validateItemsFrom_fields (items : List ItemRaw) :
    ∀ (index : ℕ) (vs : List Item), validateItemsFrom index items = .ok vs →
      vs.length = items.length ∧
      ∀ j < items.length,
        (items.getD j defaultItemRaw).a = some ((vs.getD j defaultItem).a) ∧
        (items.getD j defaultItemRaw).m = some ((vs.getD j defaultItem).m) ∧
        (items.getD j defaultItemRaw).b = some ((vs.getD j defaultItem).b) := by
  induction items with
  | nil =>
    intro index vs h
    simp only [validateItemsFrom, Except.ok.injEq] at h
    rw [← h]
    exact ⟨rfl, by simp⟩
  | cons it rest ih =>
    intro index vs h
    simp only [validateItemsFrom] at h
    cases hv : validateItem index it with
    | error e =>
      rw [hv] at h
      exact Except.noConfusion h
    | ok v =>
      simp only [hv] at h
      cases hr : validateItemsFrom (index + 1) rest with
      | error e =>
        rw [hr] at h
        exact Except.noConfusion h
      | ok ws =>
        simp only [hr, Except.ok.injEq] at h
        obtain ⟨hlen, hfields⟩ := ih (index + 1) ws hr
        obtain ⟨f1, f2, f3⟩ := validateItem_fields index it v hv
        constructor
        · rw [← h]
          simp [hlen]
        · intro j hj
          cases j with
          | zero =>
            rw [← h]
            exact ⟨f1, f2, f3⟩
          | succ j =>
            rw [← h]
            have hj' : j < rest.length := by simpa using hj
            simpa using hfields j hj'

theorem computeParams_fields (vs : List Item) :
    ∀ (ps : List ItemParams), computeParams vs = .ok ps →
      ps.length = vs.length ∧
      ∀ j < vs.length,
        calcularParametrosBetaPERT ((vs.getD j defaultItem).a) ((vs.getD j defaultItem).m)
            ((vs.getD j defaultItem).b) = .ok ((ps.getD j defaultItemParams).pert) := by
  induction vs with
  | nil =>
    intro ps h
    simp only [computeParams, Except.ok.injEq] at h
    rw [← h]
    exact ⟨rfl, by simp⟩
  | cons v rest ih =>
    intro ps h
    simp only [computeParams] at h
    cases hcal : calcularParametrosBetaPERT v.a v.m v.b with
    | error e =>
      rw [hcal] at h
      exact Except.noConfusion h
    | ok p =>
      simp only [hcal] at h
      cases hr : computeParams rest with
      | error e =>
        rw [hr] at h
        exact Except.noConfusion h
      | ok qs =>
        simp only [hr, Except.ok.injEq] at h
        obtain ⟨hlen, hfields⟩ := ih qs hr
        constructor
        · rw [← h]
          simp [hlen]
        · intro j hj
          cases j with
          | zero =>
            rw [← h]
            exact hcal
          | succ j =>
            rw [← h]
            have hj' : j < rest.length := by simpa using hj
            simpa using hfields j hj'

theorem calcular_constant (a m : ℚ) :
    calcularParametrosBetaPERT a m a = .ok ⟨0, 0, true, some a⟩ := by
  have hd : jsAbs (a - a) < EPS10 := by
    rw [sub_self]
    norm_num [jsAbs, EPS10]
  rw [calcularParametrosBetaPERT, if_pos hd]

theorem map_nil_getD (vs : List Item) (k : ℕ) :
    (vs.map fun _ => ([] : List ℚ)).getD k [] = [] := by
  rcases lt_or_le k (vs.map fun _ => ([] : List ℚ)).length with hk | hk
  · rw [List.getD_eq_getElem _ _ hk, List.getElem_map]
  · exact List.getD_eq_default _ _ hk

theorem zipWith_append_colmap_lt (accM : List (List ℚ)) (col : List ℚ) (i L : ℕ)
    (hlen : accM.length = col.length)
    (hrows : ∀ k < accM.length, (accM.getD k []).length = L) (hi : i < L) :
    (List.zipWith (fun row s => row ++ [s]) accM col).map (fun row => row.getD i 0) =
      accM.map (fun row => row.getD i 0) := by
  apply List.ext_getElem
  · simp [List.length_zipWith, hlen]
  · intro k hk1 hk2
    simp only [List.getElem_map, List.getElem_zipWith]
    have hklt : k < accM.length := by simpa using hk2
    have hrow : (accM[k]).length = L := by
      have h := hrows k hklt
      rwa [List.getD_eq_getElem _ _ hklt] at h
    exact List.getD_append _ _ _ _ (by omega)

theorem zipWith_append_colmap_last (accM : List (List ℚ)) (col : List ℚ) (L : ℕ)
    (hlen : accM.length = col.length)
    (hrows : ∀ k < accM.length, (accM.getD k []).length = L) :
    (List.zipWith (fun row s => row ++ [s]) accM col).map (fun row => row.getD L 0) = col := by
  apply List.ext_getElem
  · simp [List.length_zipWith, hlen]
  · intro k hk1 hk2
    simp only [List.getElem_map, List.getElem_zipWith]
    have hklt : k < accM.length := by
      simp [List.length_zipWith] at hk1
      omega
    have hrow : (accM[k]).length = L := by
      have h := hrows k hklt
      rwa [List.getD_eq_getElem _ _ hklt] at h
    rw [List.getD_append_right _ _ _ _ (by omega), hrow, Nat.sub_self]
    rfl

/-- Consistency invariant of the simulation loop: every stored total is the
left fold of the per-item samples of its iteration. -/

theorem simulateLoop_consistent (P : MathPrims) (fuel : ℕ) (params : List ItemParams) :
    ∀ (count : ℕ) (r : Rng) (accR : List ℚ) (accM : List (List ℚ))
      (res : List ℚ) (M : List (List ℚ)) (r' : Rng),
      accM.length = params.length →
      (∀ k < accM.length, (accM.getD k []).length = accR.length) →
      (∀ i < accR.length, accR.getD i 0 =
        List.foldl (· + ·) 0 (accM.map (fun row => row.getD i 0))) →
      simulateLoop P fuel params count r accR accM = some (res, M, r') →
      M.length = params.length ∧
      (∀ k < M.length, (M.getD k []).length = res.length) ∧
      (∀ i < res.length, res.getD i 0 =
        List.foldl (· + ·) 0 (M.map (fun row => row.getD i 0))) := by
  intro count
  induction count with
  | zero =>
    intro r accR accM res M r' hlen hrows hsums h
    simp only [simulateLoop, Option.some.injEq, Prod.mk.injEq] at h
    obtain ⟨h1, h2, h3⟩ := h
    subst h1
    subst h2
    exact ⟨hlen, hrows, hsums⟩
  | succ n ih =>
    intro r accR accM res M r' hlen hrows hsums h
    simp only [simulateLoop] at h
    cases hsim : simulateItemsAux P fuel 0 params r with
    | none =>
      rw [hsim] at h
      exact Option.noConfusion h
    | some x =>
      obtain ⟨total, col, r1⟩ := x
      simp only [hsim] at h
      obtain ⟨hcl, htot⟩ := simulateItemsAux_spec P fuel params 0 r total col r1 hsim
      have hmc : accM.length = col.length := by rw [hlen, hcl]
      have hlen' : (List.zipWith (fun row s => row ++ [s]) accM col).length = params.length := by
        rw [List.length_zipWith, hlen, hcl]
        exact min_self _
      have hrows' : ∀ k < (List.zipWith (fun row s => row ++ [s]) accM col).length,
          ((List.zipWith (fun row s => row ++ [s]) accM col).getD k []).length =
            (accR ++ [total]).length := by
        intro k hk
        rw [hlen'] at hk
        rw [zipWith_append_getD accM col k (by omega) (by omega)]
        rw [List.length_append, List.length_append, List.length_singleton,
          List.length_singleton, hrows k (by omega)]
      have hsums' : ∀ i < (accR ++ [total]).length, (accR ++ [total]).getD i 0 =
          List.foldl (· + ·) 0
            ((List.zipWith (fun row s => row ++ [s]) accM col).map (fun row => row.getD i 0)) := by
        intro i hi
        rw [List.length_append, List.length_singleton] at hi
        by_cases hlt : i < accR.length
        · rw [List.getD_append _ _ _ _ hlt,
            zipWith_append_colmap_lt accM col i accR.length hmc hrows hlt]
          exact hsums i hlt
        · have hieq : i = accR.length := by omega
          subst hieq
          rw [List.getD_append_right _ _ _ _ (le_refl _), Nat.sub_self,
            zipWith_append_colmap_last accM col accR.length hmc hrows]
          simpa using htot
      exact ih r1 (accR ++ [total]) _ res M r' hlen' hrows' hsums' h

/-- C10: whenever per-item capture is enabled and the run completes, every
stored total results[i] is exactly the left-to-right item-order sum of the
per-item samples of iteration i, so the returned matrix is exactly consistent
with the returned totals. -/

theorem c10_results_match_matrix (P : MathPrims) (fuel : ℕ) (iterations : ℚ)
    (items : List ItemRaw) (opts : SimOptions) (entropy : ℕ → ℚ) (res : SimResult)
    (c : ℕ) (M : List (List ℚ))
    (hrun : runMonteCarlo P fuel iterations items opts entropy = (.ok res, c))
    (hM : res.perItemSamples = some M) :
    ∀ i < res.results.length,
      res.results.getD i 0 = List.foldl (· + ·) 0 (M.map fun row => row.getD i 0) := by
  obtain ⟨vs, ps, results, matrix, rFinal, stats, hval, hcp, hsim, hstat, hres, hc⟩ :=
    runMonteCarlo_ok_inversion P fuel iterations items opts entropy res c hrun
  subst hres
  simp only at hM
  split at hM
  · have hMm : matrix = M := (Option.some.injEq _ _).mp hM
    subst hMm
    have hlen0 : (vs.map fun _ => ([] : List ℚ)).length = ps.length := by
      rw [List.length_map]
      exact ((computeParams_fields vs ps hcp).1).symm
    have hrows0 : ∀ k < (vs.map fun _ => ([] : List ℚ)).length,
        ((vs.map fun _ => ([] : List ℚ)).getD k []).length = ([] : List ℚ).length := by
      intro k _
      rw [map_nil_getD]
    have hsums0 : ∀ i < ([] : List ℚ).length, ([] : List ℚ).getD i 0 =
        List.foldl (· + ·) 0 ((vs.map fun _ => ([] : List ℚ)).map (fun row => row.getD i 0)) := by
      intro i hi
      simp at hi
    obtain ⟨_, _, hcons⟩ := simulateLoop_consistent P fuel ps iterations.num.toNat
      ⟨mcStream opts.seed entropy, 0⟩ [] (vs.map fun _ => []) results matrix rFinal
      hlen0 hrows0 hsums0 hsim
    exact hcons
  · exact Option.noConfusion hM

/-- C7: every sample drawn for an item with a == b equals that common value
exactly (the degenerate constant path never consumes randomness and never
rescales), and in particular a run on the single fully degenerate item
(5, 5, 5) produces a results series every entry of which is exactly 5. -/

theorem c7_degenerate_constant_samples (P : MathPrims) (fuel : ℕ) :
    (∀ (iterations : ℚ) (items : List ItemRaw) (opts : SimOptions) (entropy : ℕ → ℚ)
        (res : SimResult) (c : ℕ) (j : ℕ) (v : ℚ) (M : List (List ℚ)),
      runMonteCarlo P fuel iterations items opts entropy = (.ok res, c) →
      j < items.length →
      (items.getD j defaultItemRaw).a = some v →
      (items.getD j defaultItemRaw).b = some v →
      res.perItemSamples = some M →
      ∀ x ∈ M.getD j [], x = v) ∧
    (∀ (iterations : ℚ) (opts : SimOptions) (entropy : ℕ → ℚ) (res : SimResult) (c : ℕ),
      runMonteCarlo P fuel iterations [⟨some 5, some 5, some 5, none⟩] opts entropy =
        (.ok res, c) →
      ∀ x ∈ res.results, x = 5) := by
  constructor
  · intro iterations items opts entropy res c j v M hrun hj ha hb hM
    obtain ⟨vs, ps, results, matrix, rFinal, stats, hval, hcp, hsim, hstat, hres, hc⟩ :=
      runMonteCarlo_ok_inversion P fuel iterations items opts entropy res c hrun
    subst hres
    simp only at hM
    split at hM
    · have hMm : matrix = M := (Option.some.injEq _ _).mp hM
      subst hMm
      rw [validateItems] at hval
      obtain ⟨hvlen, hvfields⟩ := validateItemsFrom_fields items 0 vs hval
      obtain ⟨hplen, hpfields⟩ := computeParams_fields vs ps hcp
      obtain ⟨f1, _, f3⟩ := hvfields j hj
      rw [ha] at f1
      rw [hb] at f3
      have hva : (vs.getD j defaultItem).a = v := ((Option.some.injEq _ _).mp f1).symm
      have hvb : (vs.getD j defaultItem).b = v := ((Option.some.injEq _ _).mp f3).symm
      have hjv : j < vs.length := by omega
      have hcal := hpfields j hjv
      rw [hva, hvb, calcular_constant] at hcal
      have hpert : (ps.getD j defaultItemParams).pert = ⟨0, 0, true, some v⟩ :=
        ((Except.ok.injEq _ _).mp hcal).symm
      have hjp : j < ps.length := by omega
      apply simulateLoop_constant_row P fuel ps j v hjp (by rw [hpert]) (by rw [hpert])
        iterations.num.toNat ⟨mcStream opts.seed entropy, 0⟩ [] (vs.map fun _ => [])
        results matrix rFinal (by rw [List.length_map]; omega) _ hsim
      rw [map_nil_getD]
      intro x hx
      simp at hx
    · exact Option.noConfusion hM
  · intro iterations opts entropy res c hrun
    obtain ⟨vs, ps, results, matrix, rFinal, stats, hval, hcp, hsim, hstat, hres, hc⟩ :=
      runMonteCarlo_ok_inversion P fuel iterations [⟨some 5, some 5, some 5, none⟩]
        opts entropy res c hrun
    have hvs : vs = [⟨5, 5, 5, "item_1"⟩] := by
      have hcomp : validateItems [⟨some 5, some 5, some 5, none⟩] =
          .ok [⟨5, 5, 5, "item_1"⟩] := by
        with_unfolding_all decide
      rw [hcomp] at hval
      exact ((Except.ok.injEq _ _).mp hval).symm
    subst hvs
    have hps : ps = [⟨⟨0, 0, true, some 5⟩, 5, 5, "item_1"⟩] := by
      have hcomp : computeParams [⟨5, 5, 5, "item_1"⟩] =
          .ok [⟨⟨0, 0, true, some 5⟩, 5, 5, "item_1"⟩] := by
        with_unfolding_all decide
      rw [hcomp] at hcp
      exact ((Except.ok.injEq _ _).mp hcp).symm
    subst hps
    obtain ⟨hmlen, hmrows, hcons⟩ := simulateLoop_consistent P fuel
      [⟨⟨0, 0, true, some 5⟩, 5, 5, "item_1"⟩] iterations.num.toNat
      ⟨mcStream opts.seed entropy, 0⟩ [] ([⟨5, 5, 5, "item_1"⟩].map fun _ => [])
      results matrix rFinal (by simp) (by intro k hk; simp [map_nil_getD])
      (by intro i hi; simp at hi) hsim
    have hrow5 : ∀ x ∈ matrix.getD 0 [], x = 5 := by
      apply simulateLoop_constant_row P fuel [⟨⟨0, 0, true, some 5⟩, 5, 5, "item_1"⟩] 0 5
        (by simp) rfl rfl iterations.num.toNat ⟨mcStream opts.seed entropy, 0⟩ []
        ([⟨5, 5, 5, "item_1"⟩].map fun _ => []) results matrix rFinal (by simp) _ hsim
      intro x hx
      simp [map_nil_getD] at hx
    subst hres
    intro x hx
    have hx2 : x ∈ results := hx
    obtain ⟨i, hilt, hix⟩ := List.mem_iff_getElem.mp hx2
    have hi := hcons i hilt
    obtain ⟨row, hrowe⟩ := List.length_eq_one.mp (by simpa using hmlen)
    have hrlen : row.length = results.length := by
      have h0 := hmrows 0 (by rw [hrowe]; norm_num)
      rw [hrowe] at h0
      simpa using h0
    have hmem : row.getD i 0 ∈ row := by
      rw [List.getD_eq_getElem _ _ (by omega : i < row.length)]
      exact List.getElem_mem _
    have hr5 : row.getD i 0 = 5 := by
      apply hrow5
      rw [hrowe]
      exact hmem
    rw [hrowe] at hi
    simp only [List.map_cons, List.map_nil, List.foldl_cons, List.foldl_nil] at hi
    rw [hr5] at hi
    rw [← hix, ← List.getD_eq_getElem _ 0 hilt, hi]
    ring

set_option maxRecDepth 8000 in

/-- Witness for C7 at two concrete one-iteration runs: the captured row of the
degenerate item (4, 4, 4) holds only the value 4, and the results series of
the single degenerate item (5, 5, 5) holds only the value 5. -/

theorem c7_degenerate_constant_samples_witness :
    (∀ x ∈ ([[(4 : ℚ)]] : List (List ℚ)).getD 0 [], x = 4) ∧
    (∀ x ∈ [(5 : ℚ)], x = 5) := by
  have hrun4 : runMonteCarlo simplePrims 1 1 [⟨some 4, some 4, some 4, none⟩] ⟨none, true⟩
      (fun _ => 0) =
      (.ok ⟨[4], ⟨4, 4, 4, 4, 4, 0, 0, 0, 4, 4, 4, 0⟩, some [[4]]⟩, 0) := by
    with_unfolding_all decide
  have hrun5 : runMonteCarlo simplePrims 1 1 [⟨some 5, some 5, some 5, none⟩] ⟨none, false⟩
      (fun _ => 0) =
      (.ok ⟨[5], ⟨5, 5, 5, 5, 5, 0, 0, 0, 5, 5, 5, 0⟩, none⟩, 0) := by
    with_unfolding_all decide
  constructor
  · exact (c7_degenerate_constant_samples simplePrims 1).1 1
      [⟨some 4, some 4, some 4, none⟩] ⟨none, true⟩ (fun _ => 0)
      ⟨[4], ⟨4, 4, 4, 4, 4, 0, 0, 0, 4, 4, 4, 0⟩, some [[4]]⟩ 0 0 4 [[4]]
      hrun4 (by norm_num) rfl rfl rfl
  · exact (c7_degenerate_constant_samples simplePrims 1).2 1 ⟨none, false⟩ (fun _ => 0)
      ⟨[5], ⟨5, 5, 5, 5, 5, 0, 0, 0, 5, 5, 5, 0⟩, none⟩ 0 hrun5

set_option maxRecDepth 8000 in

/-- Witness for C10 at a concrete one-iteration run with capture enabled:
the stored total 1 equals the fold of the single-item column. -/

theorem c10_results_match_matrix_witness :
    ((⟨[1], ⟨1, 1, 1, 1, 1, 0, 0, 0, 1, 1, 1, 0⟩, some [[1]]⟩ : SimResult).results).getD 0 0 =
      List.foldl (· + ·) 0 (([[(1 : ℚ)]] : List (List ℚ)).map fun row => row.getD 0 0) := by
  have hrun : runMonteCarlo simplePrims 1 1 [⟨some 1, some 1, some 1, none⟩] ⟨some 7, true⟩
      (fun _ => 0) = (.ok ⟨[1], ⟨1, 1, 1, 1, 1, 0, 0, 0, 1, 1, 1, 0⟩, some [[1]]⟩, 0) := by
    with_unfolding_all decide
  exact c10_results_match_matrix simplePrims 1 1 [⟨some 1, some 1, some 1, none⟩]
    ⟨some 7, true⟩ (fun _ => 0) _ 0 [[1]] hrun rfl 0 (by decide)

/-! ## Claim C6: exactness of the variance decomposition -/

theorem sum_map_range (n : ℕ) (f : ℕ → ℚ) :
    ((List.range n).map f).sum = ∑ i in Finset.range n, f i := by
  induction n with
  | zero => simp
  | succ n ih =>
    rw [List.range_succ, List.map_append, List.sum_append, Finset.sum_range_succ, ih]
    simp

theorem sum_eq_sum_getD (l : List ℚ) :
    l.sum = ∑ i in Finset.range l.length, l.getD i 0 := by
  induction l with
  | nil => simp
  | cons x t ih =>
    rw [List.sum_cons, List.length_cons, Finset.sum_range_succ']
    simp only [List.getD_cons_succ, List.getD_cons_zero]
    rw [← ih]
    ring

theorem sum_map_getD (l : List ℚ) (g : ℚ → ℚ) :
    (l.map g).sum = ∑ i in Finset.range l.length, g (l.getD i 0) := by
  rw [sum_eq_sum_getD, List.length_map]
  apply Finset.sum_congr rfl
  intro i hi
  have h := Finset.mem_range.mp hi
  rw [List.getD_eq_getElem _ _ (by simpa using h), List.getElem_map,
    List.getD_eq_getElem _ _ h]

theorem sum_map_list_swap (l : List (List ℚ)) (n : ℕ) (F : List ℚ → ℕ → ℚ) :
    (l.map (fun xs => ∑ i in Finset.range n, F xs i)).sum =
      ∑ i in Finset.range n, (l.map (fun xs => F xs i)).sum := by
  induction l with
  | nil => simp
  | cons xs t ih =>
    simp only [List.map_cons, List.sum_cons]
    rw [ih, ← Finset.sum_add_distrib]

theorem sum_map_div (l : List (List ℚ)) (f : List ℚ → ℚ) (d : ℚ) :
    (l.map (fun xs => f xs / d)).sum = (l.map f).sum / d := by
  induction l with
  | nil => simp
  | cons x t ih =>
    simp only [List.map_cons, List.sum_cons, ih]
    ring

theorem sum_map_divmul (l : List (List ℚ)) (f : List ℚ → ℚ) (d c : ℚ) :
    (l.map (fun xs => f xs / d * c)).sum = (l.map f).sum / d * c := by
  induction l with
  | nil => simp
  | cons x t ih =>
    simp only [List.map_cons, List.sum_cons, ih]
    ring

theorem sum_map_mul_left (l : List (List ℚ)) (a : ℚ) (g : List ℚ → ℚ) :
    (l.map (fun xs => a * g xs)).sum = a * (l.map g).sum := by
  induction l with
  | nil => simp
  | cons x t ih =>
    simp only [List.map_cons, List.sum_cons, ih]
    ring

theorem sum_map_sub (l : List (List ℚ)) (f g : List ℚ → ℚ) :
    (l.map (fun xs => f xs - g xs)).sum = (l.map f).sum - (l.map g).sum := by
  induction l with
  | nil => simp
  | cons x t ih =>
    simp only [List.map_cons, List.sum_cons, ih]
    ring

theorem jsPow_two (x : ℚ) : jsPow x 2 = x * x := by
  simp [jsPow]

theorem enum_map_value {α β : Type} (l : List α) (G : α → β) :
    (l.enum.map fun ie => G ie.2) = l.map G := by
  rw [show (fun ie : ℕ × α => G ie.2) = G ∘ Prod.snd from rfl, ← List.map_map,
    List.enum_map_snd]

/-- The covariance column of the contribution records. -/

theorem contrib_cov_map (totals : List ℚ) (perItem : List (List ℚ)) :
    (calcularContribucionVarianza totals perItem).map (fun cb => cb.covariance) =
      perItem.map (fun itemSamples =>
        ((List.range totals.length).map fun j =>
          (totals.getD j 0 - jsSum totals / (totals.length : ℚ)) *
            (itemSamples.getD j 0 - jsSum itemSamples / (totals.length : ℚ))).sum /
          (totals.length : ℚ)) := by
  unfold calcularContribucionVarianza
  rw [List.map_map]
  exact enum_map_value perItem (fun itemSamples =>
    ((List.range totals.length).map fun j =>
      (totals.getD j 0 - jsSum totals / (totals.length : ℚ)) *
        (itemSamples.getD j 0 - jsSum itemSamples / (totals.length : ℚ))).sum /
      (totals.length : ℚ))

/-- The contribution-percentage column of the contribution records. -/

theorem contrib_pct_map (totals : List ℚ) (perItem : List (List ℚ)) :
    (calcularContribucionVarianza totals perItem).map (fun cb => cb.contribution) =
      perItem.map (fun itemSamples =>
        ((List.range totals.length).map fun j =>
          (totals.getD j 0 - jsSum totals / (totals.length : ℚ)) *
            (itemSamples.getD j 0 - jsSum itemSamples / (totals.length : ℚ))).sum /
          (totals.length : ℚ) / varTotalOf totals * 100) := by
  unfold calcularContribucionVarianza
  rw [List.map_map]
  exact enum_map_value perItem (fun itemSamples =>
    ((List.range totals.length).map fun j =>
      (totals.getD j 0 - jsSum totals / (totals.length : ℚ)) *
        (itemSamples.getD j 0 - jsSum itemSamples / (totals.length : ℚ))).sum /
      (totals.length : ℚ) / varTotalOf totals * 100)

/-- The per-item means add up to the mean of the totals whenever the totals
are exact sums of the per-item samples of equal length. -/

theorem sum_item_means (totals : List ℚ) (perItem : List (List ℚ))
    (hlen : ∀ xs ∈ perItem, xs.length = totals.length)
    (hsum : ∀ i < totals.length,
      totals.getD i 0 = (perItem.map (fun xs => xs.getD i 0)).sum) :
    (perItem.map (fun xs => jsSum xs / (totals.length : ℚ))).sum =
      jsSum totals / (totals.length : ℚ) := by
  have h1 : perItem.map (fun xs => jsSum xs / (totals.length : ℚ)) =
      perItem.map (fun xs =>
        (∑ i in Finset.range totals.length, xs.getD i 0) / (totals.length : ℚ)) := by
    apply List.map_congr_left
    intro xs hxs
    rw [jsSum_eq_sum, sum_eq_sum_getD, hlen xs hxs]
  rw [h1, sum_map_div, sum_map_list_swap]
  congr 1
  rw [jsSum_eq_sum, sum_eq_sum_getD]
  apply Finset.sum_congr rfl
  intro i hi
  exact (hsum i (Finset.mem_range.mp hi)).symm

theorem varTotalOf_eq (totals : List ℚ) :
    varTotalOf totals =
      (∑ j in Finset.range totals.length,
        (totals.getD j 0 - jsSum totals / (totals.length : ℚ)) *
          (totals.getD j 0 - jsSum totals / (totals.length : ℚ))) /
        (totals.length : ℚ) := by
  simp only [varTotalOf]
  rw [jsSum_eq_sum (totals.map _), sum_map_getD]
  congr 1
  apply Finset.sum_congr rfl
  intro j _
  rw [jsPow_two]

/-- C6: when every total is the exact sum of the per-item samples, the item
covariances add up exactly to the population variance of the totals, and hence
the contribution percentages add up exactly to 100 whenever that variance is
positive. -/

theorem c6_variance_decomposition (totals : List ℚ) (perItem : List (List ℚ))
    (_hne : totals ≠ [])
    (hlen : ∀ xs ∈ perItem, xs.length = totals.length)
    (hsum : ∀ i < totals.length,
      totals.getD i 0 = (perItem.map (fun xs => xs.getD i 0)).sum) :
    ((calcularContribucionVarianza totals perItem).map (fun cb => cb.covariance)).sum =
      varTotalOf totals ∧
    (0 < varTotalOf totals →
      ((calcularContribucionVarianza totals perItem).map
        (fun cb => cb.contribution)).sum = 100) := by
  have hcovsum : (perItem.map (fun itemSamples =>
      ((List.range totals.length).map fun j =>
        (totals.getD j 0 - jsSum totals / (totals.length : ℚ)) *
          (itemSamples.getD j 0 - jsSum itemSamples / (totals.length : ℚ))).sum /
        (totals.length : ℚ))).sum = varTotalOf totals := by
    rw [sum_map_div]
    have h2 : perItem.map (fun xs =>
        ((List.range totals.length).map fun j =>
          (totals.getD j 0 - jsSum totals / (totals.length : ℚ)) *
            (xs.getD j 0 - jsSum xs / (totals.length : ℚ))).sum) =
        perItem.map (fun xs =>
          ∑ j in Finset.range totals.length,
            (totals.getD j 0 - jsSum totals / (totals.length : ℚ)) *
              (xs.getD j 0 - jsSum xs / (totals.length : ℚ))) := by
      apply List.map_congr_left
      intro xs _
      rw [sum_map_range]
    rw [h2, sum_map_list_swap]
    have h3 : ∀ j ∈ Finset.range totals.length,
        (perItem.map (fun xs =>
          (totals.getD j 0 - jsSum totals / (totals.length : ℚ)) *
            (xs.getD j 0 - jsSum xs / (totals.length : ℚ)))).sum =
        (totals.getD j 0 - jsSum totals / (totals.length : ℚ)) *
          (totals.getD j 0 - jsSum totals / (totals.length : ℚ)) := by
      intro j hj
      rw [sum_map_mul_left, sum_map_sub,
        ← hsum j (Finset.mem_range.mp hj), sum_item_means totals perItem hlen hsum]
    rw [Finset.sum_congr rfl h3, varTotalOf_eq]
  constructor
  · rw [contrib_cov_map]
    exact hcovsum
  · intro hpos
    rw [contrib_pct_map, sum_map_divmul, hcovsum, div_self (ne_of_gt hpos)]
    norm_num

/-- Witness for C6 at a concrete decomposition: two items, two iterations,
with totals the exact per-iteration sums. -/

theorem c6_variance_decomposition_witness :
    ((calcularContribucionVarianza [0, 3] [[0, 1], [0, 2]]).map
      (fun cb => cb.covariance)).sum = varTotalOf [0, 3] ∧
    ((calcularContribucionVarianza [0, 3] [[0, 1], [0, 2]]).map
      (fun cb => cb.contribution)).sum = 100 := by
  have h := c6_variance_decomposition [0, 3] [[0, 1], [0, 2]]
    (by simp)
    (by intro xs hxs; fin_cases hxs <;> rfl)
    (by
      intro i hi
      simp only [List.length_cons, List.length_nil] at hi
      interval_cases i <;> with_unfolding_all decide)
  exact ⟨h.1, h.2 (by with_unfolding_all decide)⟩

/-! ## Claim C1: determinism of seeded runs -/

theorem mcStream_seeded_ne_zero (s : ℤ) (hs : s ≠ 0) (e1 e2 : ℕ → ℚ) :
    mcStream (some s) e1 = mcStream (some s) e2 := by
  show rngValue (seedState s (e1 0)) = rngValue (seedState s (e2 0))
  rw [show seedState s (e1 0) = jsToUint32 s from by rw [seedState, if_neg hs],
    show seedState s (e2 0) = jsToUint32 s from by rw [seedState, if_neg hs]]

set_option maxRecDepth 16000 in

/-- C1 counterexample: seed 0 is an integer seed, yet with the valid input
(iterations 1, single valid item (0, 0, 1)) two calls with seed 0 disagree,
because createSeededRNG replaces the falsy zero seed by a fresh entropy draw:
with one entropy stream the run exhausts its rejection fuel (the zero state
loops forever in the polar sampler), with another it completes. -/

theorem c1_seed_zero_counterexample :
    runMonteCarlo simplePrims 10 1 [⟨some 0, some 0, some 1, none⟩] ⟨some 0, true⟩
        (fun _ => 0) ≠
      runMonteCarlo simplePrims 10 1 [⟨some 0, some 0, some 1, none⟩] ⟨some 0, true⟩
        (fun _ => 1 / 2) := by
  with_unfolding_all decide

/-- C1 (amended): for every fixed positive integer iteration count, every
fixed non-empty valid item sequence, and every fixed nonzero seed, two calls
to runMonteCarlo with identical (iterations, items, seed) produce identical
outputs (results array, stats record and, when requested, the perItemSamples
matrix), whatever the platform entropy of each call: the seeded stream is a
function of the seed alone. Seed 0 falls back to platform entropy and is
excluded. -/

theorem c1_determinism_nonzero_seed (P : MathPrims) (fuel : ℕ) (iterations : ℚ)
    (items : List ItemRaw) (opts : SimOptions) (e1 e2 : ℕ → ℚ) (s : ℤ)
    (hseed : opts.seed = some s) (hs : s ≠ 0)
    (_hit : iterations.den = 1 ∧ 0 < iterations) (_hne : items ≠ [])
    (_hvalid : ∀ it ∈ items, itemOk it = true) :
    runMonteCarlo P fuel iterations items opts e1 =
      runMonteCarlo P fuel iterations items opts e2 := by
  unfold runMonteCarlo
  rw [hseed, mcStream_seeded_ne_zero s hs e1 e2]

/-- Witness for the amended C1 theorem: a seeded run with seed 1 on a valid
non-degenerate item gives the same output under two different entropy
streams. -/

theorem c1_determinism_nonzero_seed_witness :
    runMonteCarlo simplePrims 3 2 [⟨some 0, some 0, some 1, none⟩] ⟨some 1, true⟩
        (fun _ => 0) =
      runMonteCarlo simplePrims 3 2 [⟨some 0, some 0, some 1, none⟩] ⟨some 1, true⟩
        (fun _ => 1 / 2) :=
  c1_determinism_nonzero_seed simplePrims 3 2 [⟨some 0, some 0, some 1, none⟩]
    ⟨some 1, true⟩ (fun _ => 0) (fun _ => 1 / 2) 1 rfl (by norm_num)
    ⟨rfl, by norm_num⟩ (by simp) (by with_unfolding_all decide)

end SimRisk
